import Mathlib

/-!
Shallow embedding of the CognitoFlow policy engine
(src/policy_engine.py of hrudu-dev/cognitoflow).

Python dictionaries are modelled as insertion-ordered association lists
with string keys; Python values (strings, ints, bools, lists, dicts,
None) are modelled by the inductive type `Value`.  Python numbers are
modelled as integers where they appear in records, and Python float
arithmetic (the bias variance and the compliance rate) is modelled by
exact rational arithmetic.  Wall-clock timestamps are not modelled.
Python exceptions are modelled by `Except String`; the error strings
follow the text of the corresponding CPython exception messages.
-/

namespace CognitoFlow

/-- Model of a Python value as it appears in records, rule conditions and
result metadata. -/
inductive Value where
  | vStr (s : String)
  | vInt (n : Int)
  | vBool (b : Bool)
  | vList (vs : List Value)
  | vDict (kvs : List (String × Value))
  | vNone
  deriving Repr

/-- A Python dict with string keys: an insertion-ordered association list. -/
abbrev Record := List (String × Value)

/-- Lookup in an association list (Python `d.get(k)` / `d[k]` on success). -/
def alookup {α : Type} (r : List (String × α)) (k : String) : Option α :=
  match r with
  | [] => none
  | (k0, v0) :: rest => if k0 = k then some v0 else alookup rest k

/-- Key membership (Python `k in d` for a dict). -/
def containsKey {α : Type} (r : List (String × α)) (k : String) : Bool :=
  match r with
  | [] => false
  | (k0, _) :: rest => k0 = k || containsKey rest k

/-- Python truthiness of a value (`if value:`). -/
def pyTruthy : Value → Bool
  | .vStr s => !(s == "")
  | .vInt n => !(n == 0)
  | .vBool b => b
  | .vList vs => !vs.isEmpty
  | .vDict kvs => !kvs.isEmpty
  | .vNone => false

/-- Python type name of a value, as used in exception messages. -/
def pyTypeName : Value → String
  | .vStr _ => "str"
  | .vInt _ => "int"
  | .vBool _ => "bool"
  | .vList _ => "list"
  | .vDict _ => "dict"
  | .vNone => "NoneType"

/-- Replace every backslash in a string by a double backslash
(the escaping step of the Python string repr). -/
def escBackslash (s : String) : String :=
  String.mk (s.toList.flatMap (fun c => if c = '\\' then ['\\', '\\'] else [c]))

/-- Escape backslashes and single quotes (Python repr body when the repr
is singly quoted). -/
def escSingle (s : String) : String :=
  String.mk (s.toList.flatMap
    (fun c => if c = '\\' then ['\\', '\\']
              else if c = '\x27' then ['\\', '\x27'] else [c]))

/-- Python repr of a string: singly quoted unless the string contains a
single quote and no double quote, in which case it is doubly quoted.
Control-character escaping is not modelled (records are assumed to hold
printable text). -/
def pyReprStr (s : String) : String :=
  if s.toList.contains '\x27' && !s.toList.contains '"' then
    "\"" ++ escBackslash s ++ "\""
  else
    "\x27" ++ escSingle s ++ "\x27"

mutual

/-- Python repr of a value (`str(data)` on a dict reprs its contents). -/
def pyRepr : Value → String
  | .vStr s => pyReprStr s
  | .vInt n => toString n
  | .vBool b => if b then "True" else "False"
  | .vList vs => "[" ++ pyReprListAux vs ++ "]"
  | .vDict kvs => "\x7b" ++ pyReprDictAux kvs ++ "\x7d"
  | .vNone => "None"

/-- Comma-separated reprs of list elements. -/
def pyReprListAux : List Value → String
  | [] => ""
  | [v] => pyRepr v
  | v :: rest => pyRepr v ++ ", " ++ pyReprListAux rest

/-- Comma-separated `key: value` reprs of dict items. -/
def pyReprDictAux : List (String × Value) → String
  | [] => ""
  | [(k, v)] => pyReprStr k ++ ": " ++ pyRepr v
  | (k, v) :: rest => pyReprStr k ++ ": " ++ pyRepr v ++ ", " ++ pyReprDictAux rest

end

/-- Python `str(value)`: the string itself for strings, repr otherwise. -/
def pyStr : Value → String
  | .vStr s => s
  | v => pyRepr v

end CognitoFlow

namespace CognitoFlow

/-!
### Regular-expression matchers

`_detect_pii` and `_anonymize_data` use four fixed `re` patterns:

  email  `\b[A-Za-z0-9._%+-]+@[A-Za-z0-9.-]+\.[A-Z|a-z]{2,}\b`
  phone  `\b\d{3}-\d{3}-\d{4}\b|\b\(\d{3}\)\s*\d{3}-\d{4}\b`
  ssn    `\b\d{3}-\d{2}-\d{4}\b`
  card   `\b\d{4}[\s-]?\d{4}[\s-]?\d{4}[\s-]?\d{4}\b`

Each is embedded as a match-at-position function returning the length the
Python engine would match there (leftmost start handled by the scanners
below, greedy quantifiers with backtracking handled inside).  Word
characters follow the ASCII reading of `\w`.
-/

/-- ASCII word character (`\w`): letters, digits, underscore. -/
def isWordChar (c : Char) : Bool := c.isAlphanum || c == '_'

/-- Whether an optional character is a word character; the virtual
character beyond either end of the text is not. -/
def wordOpt : Option Char → Bool
  | some c => isWordChar c
  | none => false

/-- Word boundary `\b` between two adjacent (optional) characters. -/
def boundaryB (prev cur : Option Char) : Bool := wordOpt prev != wordOpt cur

/-- Character class `[A-Za-z0-9._%+-]` (email local part). -/
def isLocalChar (c : Char) : Bool :=
  c.isAlphanum || c == '.' || c == '_' || c == '%' || c == '+' || c == '-'

/-- Character class `[A-Za-z0-9.-]` (email domain). -/
def isDomainChar (c : Char) : Bool := c.isAlphanum || c == '.' || c == '-'

/-- Character class `[A-Z|a-z]` (email top-level part; the source class
literally includes the bar character). -/
def isTldChar (c : Char) : Bool := c.isAlpha || c == '|'

/-- Python `\s` over the ASCII range. -/
def isSpaceChar (c : Char) : Bool :=
  c == ' ' || c == '\t' || c == '\n' || c == '\x0b' || c == '\x0c' || c == '\r'

/-- Length of the maximal prefix of characters satisfying `p`. -/
def runLen (p : Char → Bool) (cs : List Char) : Nat := (cs.takeWhile p).length

/-- Consume exactly `n` digits, returning the remaining text. -/
def takeDigits : Nat → List Char → Option (List Char)
  | 0, cs => some cs
  | _ + 1, [] => none
  | n + 1, c :: cs => if c.isDigit then takeDigits n cs else none

/-- Backtracking search over the email top-level-part length, longest
first (candidate lengths at least 2), for a final word boundary.
`rest` is the text just after the dot. -/
def tldTry (rest : List Char) : Nat → Option Nat
  | 0 => none
  | 1 => none
  | n + 2 =>
    if boundaryB (rest.get? (n + 1)) (rest.get? (n + 2)) then some (n + 2)
    else tldTry rest (n + 1)

/-- Backtracking search over the email domain length, longest first: the
greedy `[A-Za-z0-9.-]+` gives back characters until the literal dot and a
viable top-level part follow.  `cs2` is the text just after the at sign;
the result is the total length matched after the at sign. -/
def domainTry (cs2 : List Char) : Nat → Option Nat
  | 0 => none
  | d + 1 =>
    match (if cs2.get? (d + 1) == some '.' then
             (tldTry (cs2.drop (d + 2)) (runLen isTldChar (cs2.drop (d + 2)))).map
               (fun tl => (d + 1) + 1 + tl)
           else none) with
    | some r => some r
    | none => domainTry cs2 d

/-- Email pattern at one position.  The local part is the maximal run of
local characters: a shorter run would have to be followed by an at sign,
which is itself not a local character, so no backtracking arises there. -/
def matchEmailAt (prev : Option Char) (cs : List Char) : Option Nat :=
  if !boundaryB prev cs.head? then none
  else
    let l := runLen isLocalChar cs
    if l == 0 then none
    else
      match cs.drop l with
      | '@' :: cs2 => (domainTry cs2 (runLen isDomainChar cs2)).map (fun t => l + 1 + t)
      | _ => none

/-- Match a fixed sequence of single-character classes. -/
def matchShape : List (Char → Bool) → List Char → Bool
  | [], _ => true
  | _ :: _, [] => false
  | p :: ps, c :: cs => p c && matchShape ps cs

/-- Fixed-shape pattern bracketed by word boundaries. -/
def matchFixedAt (shape : List (Char → Bool)) (prev : Option Char) (cs : List Char) :
    Option Nat :=
  if boundaryB prev cs.head? && matchShape shape cs
     && boundaryB (cs.get? (shape.length - 1)) (cs.get? shape.length)
  then some shape.length else none

/-- Shape of `\d{3}-\d{3}-\d{4}` (first phone alternative). -/
def phoneShape : List (Char → Bool) :=
  [Char.isDigit, Char.isDigit, Char.isDigit, (· == '-'),
   Char.isDigit, Char.isDigit, Char.isDigit, (· == '-'),
   Char.isDigit, Char.isDigit, Char.isDigit, Char.isDigit]

/-- Shape of `\d{3}-\d{2}-\d{4}` (SSN). -/
def ssnShape : List (Char → Bool) :=
  [Char.isDigit, Char.isDigit, Char.isDigit, (· == '-'),
   Char.isDigit, Char.isDigit, (· == '-'),
   Char.isDigit, Char.isDigit, Char.isDigit, Char.isDigit]

/-- Second phone alternative `\(\d{3}\)\s*\d{3}-\d{4}` with its word
boundaries.  The boundary before the opening parenthesis holds only when
the preceding character is a word character. -/
def matchPhoneParenAt (prev : Option Char) (cs : List Char) : Option Nat :=
  if !boundaryB prev cs.head? then none
  else
    match cs with
    | '(' :: r1 =>
      match takeDigits 3 r1 with
      | some (')' :: r2) =>
        let r3 := r2.drop (runLen isSpaceChar r2)
        match takeDigits 3 r3 with
        | some ('-' :: r4) =>
          match takeDigits 4 r4 with
          | some r5 =>
            let len := cs.length - r5.length
            if boundaryB (cs.get? (len - 1)) (cs.get? len) then some len else none
          | none => none
        | _ => none
      | _ => none
    | _ => none

/-- Phone pattern: the engine tries the first alternative, then the
parenthesised one. -/
def matchPhoneAt (prev : Option Char) (cs : List Char) : Option Nat :=
  match matchFixedAt phoneShape prev cs with
  | some n => some n
  | none => matchPhoneParenAt prev cs

/-- SSN pattern. -/
def matchSSNAt (prev : Option Char) (cs : List Char) : Option Nat :=
  matchFixedAt ssnShape prev cs

/-- Three groups of `[\s-]?\d{4}` for the card pattern.  The greedy
optional separator is deterministic: when a separator character is
present, the fallback path would have to read a digit at the separator
position, which always fails, so consuming it is the only viable choice. -/
def cardGroups : Nat → List Char → Option (List Char)
  | 0, cs => some cs
  | n + 1, cs =>
    let cs1 := match cs with
               | c :: rest => if isSpaceChar c || c == '-' then rest else cs
               | [] => cs
    match takeDigits 4 cs1 with
    | some r => cardGroups n r
    | none => none

/-- Card pattern `\d{4}` then three separator-digit groups, bracketed by
word boundaries. -/
def matchCardAt (prev : Option Char) (cs : List Char) : Option Nat :=
  if !boundaryB prev cs.head? then none
  else
    match takeDigits 4 cs with
    | none => none
    | some r1 =>
      match cardGroups 3 r1 with
      | none => none
      | some r4 =>
        let len := cs.length - r4.length
        if boundaryB (cs.get? (len - 1)) (cs.get? len) then some len else none

/-- Scan left to right for a match (Python `re.search` viewed as a
boolean). -/
def searchFrom (m : Option Char → List Char → Option Nat) :
    Option Char → List Char → Bool
  | prev, [] => (m prev []).isSome
  | prev, c :: rest => (m prev (c :: rest)).isSome || searchFrom m (some c) rest

/-- Python `re.search(pattern, s) is not None`. -/
def pySearch (m : Option Char → List Char → Option Nat) (s : String) : Bool :=
  searchFrom m none s.toList

end CognitoFlow

namespace CognitoFlow

/-- Python `re.sub(pattern, tok, s)`: leftmost non-overlapping matches on
the original text are replaced; scanning resumes after each match with
the original character before the resume point as boundary context.  The
four patterns never match the empty string, so a zero-length match is
treated as no match.  Structural recursion on a fuel argument (each step
consumes at least one character, so fuel at least the text length is
never exhausted) keeps the definition reducible. -/
def subFromAux (m : Option Char → List Char → Option Nat) (tok : List Char) :
    Nat → Option Char → List Char → List Char
  | 0, _, cs => cs
  | _ + 1, _, [] => []
  | fuel + 1, prev, c :: rest =>
    match m prev (c :: rest) with
    | some (n + 1) =>
      tok ++ subFromAux m tok fuel ((c :: rest).get? n) ((c :: rest).drop (n + 1))
    | _ => c :: subFromAux m tok fuel (some c) rest

/-- String-level substitution. -/
def pySub (m : Option Char → List Char → Option Nat) (tok : String) (s : String) :
    String :=
  String.mk (subFromAux m tok.toList s.toList.length none s.toList)

/-- Model of `_detect_pii`: scan `str(data)` with the four patterns and
collect the detected kind tags in source order. -/
def detect_pii (data : Record) : List String :=
  let text := pyRepr (Value.vDict data)
  (if pySearch matchEmailAt text then ["email"] else []) ++
  (if pySearch matchPhoneAt text then ["phone"] else []) ++
  (if pySearch matchSSNAt text then ["ssn"] else []) ++
  (if pySearch matchCardAt text then ["credit_card"] else [])

/-- Python `str.lower()` over the ASCII range, character by character
(defined over the character list so that it reduces definitionally). -/
def strLower (s : String) : String := String.mk (s.toList.map Char.toLower)

/-- Substring membership (Python `pat in s` on strings), scanning `s`. -/
def hasSubstrAux (pat : List Char) : List Char → Bool
  | [] => pat.isEmpty
  | c :: rest => pat.isPrefixOf (c :: rest) || hasSubstrAux pat rest

/-- Python `pat in s` for strings. -/
def hasSubstr (s pat : String) : Bool := hasSubstrAux pat.toList s.toList

/-- The fixed protected-health-information indicator vocabulary. -/
def phi_indicators : List String :=
  ["medical_record", "patient_id", "diagnosis", "treatment",
   "prescription", "doctor", "hospital", "insurance"]

/-- Model of `_detect_phi`: case-insensitive substring scan of
`str(data)` for the indicator vocabulary. -/
def detect_phi (data : Record) : Bool :=
  let text := strLower (pyRepr (Value.vDict data))
  phi_indicators.any (fun ind => hasSubstr text ind)

/-- The four placeholder substitutions of `_anonymize_data`, applied in
source order (emails, phones, SSNs, cards). -/
def anonymizeString (s : String) : String :=
  let s1 := pySub matchEmailAt "[EMAIL]" s
  let s2 := pySub matchPhoneAt "[PHONE]" s1
  let s3 := pySub matchSSNAt "[SSN]" s2
  pySub matchCardAt "[CARD]" s3

/-- Per-value form of the substitution: only string values are rewritten. -/
def anonymizeValue : Value → Value
  | .vStr s => .vStr (anonymizeString s)
  | v => v

/-- The anonymized copy built inside `_anonymize_data` (`data.copy()` with
each string field substituted). -/
def anonymizeRecord (data : Record) : Record :=
  data.map (fun kv => (kv.1, anonymizeValue kv.2))

end CognitoFlow

namespace CognitoFlow

/-!
### Idempotence of the placeholder substitution: scan infrastructure

The goal is that a second run of the four placeholder substitutions
changes nothing.  The development shows that each substitution output is
free of matches for its own pattern and that the later substitutions
preserve that freeness, then concludes by running the second pass over a
match-free text.
-/

/-- Unfolding of the scanner on a cons cell. -/
theorem searchFrom_cons (m : Option Char → List Char → Option Nat)
    (prev : Option Char) (c : Char) (rest : List Char) :
    searchFrom m prev (c :: rest) =
      ((m prev (c :: rest)).isSome || searchFrom m (some c) rest) := rfl

/-- A scan that finds nothing at all fails at the head position. -/
theorem head_none_of_searchFrom_false {m : Option Char → List Char → Option Nat}
    {prev : Option Char} {c : Char} {rest : List Char}
    (h : searchFrom m prev (c :: rest) = false) : m prev (c :: rest) = none := by
  rw [searchFrom_cons] at h
  rcases Bool.or_eq_false_iff.mp h with ⟨h1, _⟩
  exact Option.not_isSome_iff_eq_none.mp (by simp [h1])

/-- A scan that finds nothing finds nothing in the tail either. -/
theorem tail_free_of_searchFrom_false {m : Option Char → List Char → Option Nat}
    {prev : Option Char} {c : Char} {rest : List Char}
    (h : searchFrom m prev (c :: rest) = false) : searchFrom m (some c) rest = false := by
  rw [searchFrom_cons] at h
  exact (Bool.or_eq_false_iff.mp h).2

/-- A match-free text is left unchanged by the substitution. -/
theorem subFromAux_of_free (m : Option Char → List Char → Option Nat)
    (tok : List Char) :
    ∀ (fuel : Nat) (prev : Option Char) (cs : List Char), cs.length ≤ fuel →
      searchFrom m prev cs = false → subFromAux m tok fuel prev cs = cs := by
  intro fuel
  induction fuel with
  | zero => intro prev cs _ _; rfl
  | succ f ih =>
    intro prev cs hlen hfree
    cases cs with
    | nil => rfl
    | cons c rest =>
      have h1 := head_none_of_searchFrom_false hfree
      have h2 := tail_free_of_searchFrom_false hfree
      show subFromAux m tok (f + 1) prev (c :: rest) = c :: rest
      rw [subFromAux, h1]
      simp only [List.length_cons, Nat.add_le_add_iff_right] at hlen
      rw [ih (some c) rest hlen h2]

/-- Match-freeness passes to any suffix, with the preceding character as
scan context. -/
theorem searchFrom_false_drop {m : Option Char → List Char → Option Nat} :
    ∀ {cs : List Char} {prev : Option Char}, searchFrom m prev cs = false →
      ∀ n, n < cs.length → searchFrom m (cs.get? n) (cs.drop (n + 1)) = false := by
  intro cs
  induction cs with
  | nil => intro prev _ n hn; simp at hn
  | cons c rest ih =>
    intro prev h n hn
    cases n with
    | zero => simpa using tail_free_of_searchFrom_false h
    | succ k =>
      have := ih (tail_free_of_searchFrom_false h) k (by simpa using hn)
      simpa using this

/-- Scan context at the end of an already-read prefix. -/
def lastCtx (prev : Option Char) (a : List Char) : Option Char :=
  a.getLast?.elim prev some

end CognitoFlow

namespace CognitoFlow

/-- Context at the start: nothing read yet. -/
theorem lastCtx_nil (prev : Option Char) : lastCtx prev [] = prev := rfl

/-- Reading one more character shifts the base context. -/
theorem lastCtx_cons (prev : Option Char) (c : Char) (a : List Char) :
    lastCtx prev (c :: a) = lastCtx (some c) a := by
  cases a with
  | nil => rfl
  | cons d a' =>
    simp only [lastCtx, List.getLast?_cons_cons]
    cases h : (d :: a').getLast? with
    | none => simp [List.getLast?_eq_none_iff] at h
    | some x => rfl

/-- On a nonempty prefix the context is its final character. -/
theorem lastCtx_eq_get? (prev : Option Char) (a : List Char) (h : a ≠ []) :
    lastCtx prev a = a.get? (a.length - 1) := by
  induction a generalizing prev with
  | nil => exact absurd rfl h
  | cons c rest ih =>
    cases rest with
    | nil => rfl
    | cons d r' =>
      rw [lastCtx_cons, ih (some c) (by simp)]
      simp

/-- Decomposition of a substitution output: it either equals the input
(no match was replaced) or splits as an untouched prefix, the token, and
a remainder, with the corresponding input suffix matching the pattern in
the context of that prefix. -/
theorem subFromAux_agree (m : Option Char → List Char → Option Nat)
    (tok : List Char) :
    ∀ (fuel : Nat) (prev : Option Char) (cs : List Char), cs.length ≤ fuel →
      subFromAux m tok fuel prev cs = cs ∨
      ∃ (a b t : List Char) (n : Nat),
        cs = a ++ b ∧
        subFromAux m tok fuel prev cs = a ++ tok ++ t ∧
        m (lastCtx prev a) b = some (n + 1) := by
  intro fuel
  induction fuel with
  | zero => intro prev cs _; left; rfl
  | succ f ih =>
    intro prev cs hlen
    cases cs with
    | nil => left; rfl
    | cons c rest =>
      have hlen' : rest.length ≤ f := by
        simpa using Nat.le_of_succ_le_succ (by simpa using hlen)
      cases hm : m prev (c :: rest) with
      | some n =>
        cases n with
        | zero =>
          rcases ih (some c) rest hlen' with h | ⟨a, b, t, n, hab, hout, hmatch⟩
          · left
            simp only [subFromAux, hm, h]
          · right
            refine ⟨c :: a, b, t, n, by simp [hab], ?_, ?_⟩
            · simp only [subFromAux, hm, hout]
              simp [List.append_assoc]
            · rwa [lastCtx_cons]
        | succ k =>
          right
          refine ⟨[], c :: rest,
            subFromAux m tok f ((c :: rest).get? k) ((c :: rest).drop (k + 1)), k,
            rfl, ?_, ?_⟩
          · simp only [subFromAux, hm]
            simp
          · simpa [lastCtx] using hm
      | none =>
        rcases ih (some c) rest hlen' with h | ⟨a, b, t, n, hab, hout, hmatch⟩
        · left
          simp only [subFromAux, hm, h]
        · right
          refine ⟨c :: a, b, t, n, by simp [hab], ?_, ?_⟩
          · simp only [subFromAux, hm, hout]
            simp [List.append_assoc]
          · rwa [lastCtx_cons]

end CognitoFlow

namespace CognitoFlow

/-- The facts about a single pattern matcher on which the idempotence
argument relies.  All four pattern matchers satisfy them (proved below,
one instance each). -/
structure MatcherOk (m : Option Char → List Char → Option Nat) : Prop where
  not_zero : ∀ p cs, m p cs ≠ some 0
  le_length : ∀ p cs n, m p cs = some n → n ≤ cs.length
  empty_none : ∀ p, m p [] = none
  no_bound_none : ∀ p cs, boundaryB p cs.head? = false → m p cs = none
  ctx_congr : ∀ p q cs, wordOpt p = wordOpt q → m p cs = m q cs
  bracketL : ∀ p u, m p ('[' :: u) = none
  bracketR : ∀ p u, m p (']' :: u) = none
  alpha_tail : ∀ p ls u, ls ≠ [] → (∀ c ∈ ls, c.isAlpha = true) →
    m p (ls ++ ']' :: u) = none
  trail_bound : ∀ p cs n, m p cs = some n →
    boundaryB (cs.get? (n - 1)) (cs.get? n) = true
  transfer : ∀ p A w z g, boundaryB (lastCtx p A) (some g) = true →
    (m p (A ++ '[' :: w)).isSome = true → (m p (A ++ g :: z)).isSome = true

/-- A matched suffix is nonempty, so a match implies a first character. -/
theorem match_head {m : Option Char → List Char → Option Nat}
    (hm : MatcherOk m) {p : Option Char} {b : List Char} {n : Nat}
    (h : m p b = some n) : ∃ g gt, b = g :: gt := by
  cases b with
  | nil => exact absurd h (by simp [hm.empty_none])
  | cons g gt => exact ⟨g, gt, rfl⟩

/-- A match implies the word boundary at its start. -/
theorem match_start_bound {m : Option Char → List Char → Option Nat}
    (hm : MatcherOk m) {p : Option Char} {cs : List Char} {n : Nat}
    (h : m p cs = some n) : boundaryB p cs.head? = true := by
  by_contra hb
  rw [hm.no_bound_none p cs (by simpa using hb)] at h
  cases h

/-- Freeness with the close-bracket context follows from freeness with the
previous input character as context, when the first character of the text
is a bracket or not a word character. -/
theorem bridge_close_bracket {m : Option Char → List Char → Option Nat}
    (hm : MatcherOk m) {L : Option Char} {out : List Char}
    (hfree : searchFrom m L out = false)
    (hhead : wordOpt L = true → ∀ h t, out = h :: t → (h = '[' ∨ isWordChar h = false)) :
    searchFrom m (some ']') out = false := by
  cases out with
  | nil =>
    show (m (some ']') []).isSome = false
    simp [hm.empty_none]
  | cons h t =>
    rw [searchFrom_cons]
    refine Bool.or_eq_false_iff.mpr ⟨?_, tail_free_of_searchFrom_false hfree⟩
    cases hw : wordOpt L with
    | false =>
      rw [hm.ctx_congr (some ']') L (h :: t) (by rw [hw]; decide)]
      simp [head_none_of_searchFrom_false hfree]
    | true =>
      rcases hhead hw h t rfl with rfl | hnw
      · simp [hm.bracketL]
      · have hwr : isWordChar ']' = false := by decide
        have hb : boundaryB (some ']') (some h) = false := by
          simp [boundaryB, wordOpt, hnw, hwr]
        simp [hm.no_bound_none (some ']') (h :: t) (by simpa using hb)]

end CognitoFlow

namespace CognitoFlow

/-- No match starts inside a placeholder token: walking the token from its
opening bracket through its alphabetic interior to its closing bracket
finds nothing, and the scan continues after the closing bracket. -/
theorem searchFrom_token_append {m : Option Char → List Char → Option Nat}
    (hm : MatcherOk m) (inner : List Char)
    (hinner : ∀ c ∈ inner, c.isAlpha = true) (p : Option Char) (out : List Char)
    (hout : searchFrom m (some ']') out = false) :
    searchFrom m p (('[' :: inner ++ [']']) ++ out) = false := by
  have hshape : ('[' :: inner ++ [']']) ++ out = '[' :: (inner ++ ']' :: out) := by
    simp
  rw [hshape, searchFrom_cons]
  have aux : ∀ (ds : List Char), (∀ c ∈ ds, c.isAlpha = true) → ∀ q,
      searchFrom m q (ds ++ ']' :: out) = false := by
    intro ds
    induction ds with
    | nil =>
      intro _ q
      rw [List.nil_append, searchFrom_cons]
      exact Bool.or_eq_false_iff.mpr ⟨by simp [hm.bracketR], hout⟩
    | cons d ds ih =>
      intro hall q
      rw [List.cons_append, searchFrom_cons]
      refine Bool.or_eq_false_iff.mpr ⟨?_, ?_⟩
      · have := hm.alpha_tail q (d :: ds) out (by simp) (fun c hc => hall c hc)
        rw [List.cons_append] at this
        simp [this]
      · exact ih (fun c hc => hall c (by simp [hc])) (some d)
  exact Bool.or_eq_false_iff.mpr ⟨by simp [hm.bracketL], aux inner hinner (some '[')⟩

end CognitoFlow

namespace CognitoFlow

/-- The substitution of the empty text is empty. -/
theorem subFromAux_nil (m : Option Char → List Char → Option Nat)
    (tok : List Char) (fuel : Nat) (prev : Option Char) :
    subFromAux m tok fuel prev [] = [] := by
  cases fuel <;> rfl

/-- The substitution output of a nonempty text starts with the token
(when a match was replaced at the front) or with the input head. -/
theorem subFromAux_head (m : Option Char → List Char → Option Nat)
    (tk : List Char) (fuel : Nat) (prev : Option Char) (c : Char)
    (cs : List Char) :
    (subFromAux m ('[' :: tk ++ [']']) fuel prev (c :: cs)).head? = some '[' ∨
    (subFromAux m ('[' :: tk ++ [']']) fuel prev (c :: cs)).head? = some c := by
  cases fuel with
  | zero => right; rfl
  | succ f =>
    cases hm : m prev (c :: cs) with
    | none => right; simp [subFromAux, hm]
    | some n =>
      cases n with
      | zero => right; simp [subFromAux, hm]
      | succ k => left; simp [subFromAux, hm]

/-- The head of a dropped suffix is the element at the drop position. -/
theorem head?_drop_eq_get? (l : List Char) (n : Nat) :
    (l.drop n).head? = l.get? n := by
  rw [List.get?_eq_getElem?, List.head?_drop]

/-- A scan with a matcher satisfying the bundle fails on the empty text. -/
theorem searchFrom_nil_of_ok {m : Option Char → List Char → Option Nat}
    (hm : MatcherOk m) (p : Option Char) : searchFrom m p [] = false := by
  show (m p []).isSome = false
  simp [hm.empty_none]

end CognitoFlow

namespace CognitoFlow

/-- Main freeness induction.  Substituting pattern Y by its bracketed
placeholder leaves a text free of pattern X matches, provided either
X is Y itself (self-freeness) or the input was already X-free
(preservation). -/
theorem sub_free {mX mY : Option Char → List Char → Option Nat}
    (hX : MatcherOk mX) (hY : MatcherOk mY) (inner : List Char)
    (hinner : ∀ c ∈ inner, c.isAlpha = true) :
    ∀ (fuel : Nat) (p : Option Char) (cs : List Char), cs.length ≤ fuel →
      (mX = mY ∨ searchFrom mX p cs = false) →
      searchFrom mX p (subFromAux mY ('[' :: inner ++ [']']) fuel p cs) = false := by
  intro fuel
  induction fuel with
  | zero =>
    intro p cs hlen _
    have hcs : cs = [] := List.length_eq_zero.mp (Nat.le_zero.mp hlen)
    subst hcs
    exact searchFrom_nil_of_ok hX p
  | succ f ih =>
    intro p cs hlen hdisj
    cases cs with
    | nil => exact searchFrom_nil_of_ok hX p
    | cons c rest =>
      have hlenr : rest.length ≤ f := by
        have := hlen
        simp only [List.length_cons] at this
        omega
      cases hm : mY p (c :: rest) with
      | some n =>
        cases n with
        | zero => exact absurd hm (hY.not_zero p (c :: rest))
        | succ k =>
          simp only [subFromAux, hm]
          have hlen' : ((c :: rest).drop (k + 1)).length ≤ f := by
            simp only [List.length_drop, List.length_cons]
            omega
          have hdisj' : mX = mY ∨
              searchFrom mX ((c :: rest).get? k) ((c :: rest).drop (k + 1)) = false := by
            rcases hdisj with h | h
            · exact Or.inl h
            · right
              have hk : k < (c :: rest).length := by
                have := hY.le_length p (c :: rest) (k + 1) hm
                simp only [List.length_cons] at this ⊢
                omega
              exact searchFrom_false_drop h k hk
          have hfree₂ := ih ((c :: rest).get? k) ((c :: rest).drop (k + 1)) hlen' hdisj'
          have htb := hY.trail_bound p (c :: rest) (k + 1) hm
          simp only [Nat.add_sub_cancel] at htb
          have hhead : wordOpt ((c :: rest).get? k) = true →
              ∀ h t, subFromAux mY ('[' :: inner ++ [']']) f
                ((c :: rest).get? k) ((c :: rest).drop (k + 1)) = h :: t →
              (h = '[' ∨ isWordChar h = false) := by
            intro hword h t hht
            cases hcse : (c :: rest).drop (k + 1) with
            | nil =>
              rw [hcse, subFromAux_nil] at hht
              cases hht
            | cons d ds =>
              rw [hcse] at hht
              have hd : (c :: rest).get? (k + 1) = some d := by
                rw [← head?_drop_eq_get?, hcse]
                rfl
              have hdnw : isWordChar d = false := by
                cases hval : isWordChar d
                · rfl
                · exfalso
                  rw [hd] at htb
                  have hwd : wordOpt (some d) = true := hval
                  rw [boundaryB, hword, hwd] at htb
                  simp at htb
              rcases subFromAux_head mY inner f ((c :: rest).get? k) d ds with hh | hh
              · rw [hht] at hh
                left
                simpa using hh
              · rw [hht] at hh
                right
                have hhd : h = d := by simpa using hh
                rw [hhd]
                exact hdnw
          have hbridge := bridge_close_bracket hX hfree₂ hhead
          exact searchFrom_token_append hX inner hinner p _ hbridge
      | none =>
        simp only [subFromAux, hm]
        rw [searchFrom_cons]
        have hXnone : mX p (c :: rest) = none := by
          rcases hdisj with h | h
          · rw [h]; exact hm
          · exact head_none_of_searchFrom_false h
        refine Bool.or_eq_false_iff.mpr ⟨?_, ?_⟩
        · rcases subFromAux_agree mY ('[' :: inner ++ [']']) f (some c) rest hlenr with
            hsame | ⟨a, b, t, n, hab, hsub, hmatch⟩
          · rw [hsame]
            simp [hXnone]
          · by_contra hcontra
            rw [Bool.not_eq_false] at hcontra
            rcases match_head hY hmatch with ⟨g, gt, hb⟩
            have hbound : boundaryB (lastCtx (some c) a) (some g) = true := by
              have := match_start_bound hY hmatch
              rw [hb] at this
              simpa using this
            have hbound' : boundaryB (lastCtx p (c :: a)) (some g) = true := by
              rw [lastCtx_cons]
              exact hbound
            rw [hsub] at hcontra
            have hshape : c :: (a ++ ('[' :: inner ++ [']']) ++ t)
                = (c :: a) ++ '[' :: (inner ++ ']' :: t) := by
              simp
            rw [hshape] at hcontra
            have htrans := hX.transfer p (c :: a) (inner ++ ']' :: t) gt g hbound' hcontra
            have hrw : (c :: a) ++ g :: gt = c :: rest := by
              rw [hab, hb]
              simp
            rw [hrw, hXnone] at htrans
            simp at htrans
        · have hdisj' : mX = mY ∨ searchFrom mX (some c) rest = false := by
            rcases hdisj with h | h
            · exact Or.inl h
            · exact Or.inr (tail_free_of_searchFrom_false h)
          exact ih (some c) rest hlenr hdisj'

end CognitoFlow

namespace CognitoFlow

/-!
### Positional toolkit for the pattern matchers
-/

/-- Indexing an append within the left part. -/
theorem get?_append_lt {α : Type} (A u : List α) (i : Nat) (h : i < A.length) :
    (A ++ u).get? i = A.get? i := by
  rw [List.get?_eq_getElem?, List.get?_eq_getElem?]
  simp [List.getElem?_append, h]

/-- Indexing an append within the right part. -/
theorem get?_append_ge {α : Type} (A u : List α) (i : Nat) (h : A.length ≤ i) :
    (A ++ u).get? i = u.get? (i - A.length) := by
  rw [List.get?_eq_getElem?, List.get?_eq_getElem?, List.getElem?_append_right h]

/-- Texts sharing a prefix agree at indices inside it. -/
theorem get?_agree {α : Type} (A u v : List α) (i : Nat) (h : i < A.length) :
    (A ++ u).get? i = (A ++ v).get? i := by
  rw [get?_append_lt A u i h, get?_append_lt A v i h]

/-- Indexing a dropped list. -/
theorem get?_drop (l : List Char) (m j : Nat) :
    (l.drop m).get? j = l.get? (m + j) := by
  rw [List.get?_eq_getElem?, List.get?_eq_getElem?, List.getElem?_drop]

/-- Texts sharing a prefix have the same head when the prefix is nonempty. -/
theorem head?_agree {α : Type} (A u v : List α) (h : A ≠ []) :
    (A ++ u).head? = (A ++ v).head? := by
  cases A with
  | nil => exact absurd rfl h
  | cons a A' => rfl

/-- An indexed element is a member. -/
theorem mem_of_get? {α : Type} {l : List α} {i : Nat} {a : α}
    (h : l.get? i = some a) : a ∈ l := List.get?_mem h

/-- Splitting an equality of appends when the first left part is at least
as long as the shared prefix. -/
theorem append_eq_extract {α : Type} {A b pre post : List α}
    (h : A ++ b = pre ++ post) (hlen : pre.length ≤ A.length) :
    ∃ mid, A = pre ++ mid ∧ post = mid ++ b := by
  rcases List.append_eq_append_iff.mp h.symm with ⟨a', h1, h2⟩ | ⟨c', h1, h2⟩
  · exact ⟨a', h1, h2⟩
  · have : c'.length = 0 := by
      have := congrArg List.length h1
      simp at this
      omega
    rcases List.length_eq_zero.mp this with rfl
    refine ⟨[], ?_, ?_⟩
    · simpa using h1.symm
    · simpa using h2.symm

/-- A prefix whose characters all avoid `x` ends before an occurrence of
`x` just past the shared part. -/
theorem pre_length_le {A w pre post : List Char} {x : Char}
    (h : A ++ x :: w = pre ++ post) (havoid : ∀ c ∈ pre, c ≠ x) :
    pre.length ≤ A.length := by
  by_contra hlt
  push_neg at hlt
  have h1 : (A ++ x :: w).get? A.length = some x := by
    rw [get?_append_ge A (x :: w) A.length (Nat.le_refl _)]
    simp
  have h2 : (pre ++ post).get? A.length = pre.get? A.length := by
    exact get?_append_lt pre post A.length hlt
  rw [h, h2] at h1
  exact havoid x (mem_of_get? h1) rfl

end CognitoFlow

namespace CognitoFlow

/-- Unfolding of the maximal run on a cons cell. -/
theorem runLen_cons (p : Char → Bool) (c : Char) (rest : List Char) :
    runLen p (c :: rest) = if p c then runLen p rest + 1 else 0 := by
  simp only [runLen, List.takeWhile]
  cases p c <;> simp

/-- The maximal run is bounded by the text length. -/
theorem runLen_le_length (p : Char → Bool) (cs : List Char) :
    runLen p cs ≤ cs.length := by
  induction cs with
  | nil => simp [runLen, List.takeWhile]
  | cons c rest ih =>
    rw [runLen_cons]
    cases p c <;> simp <;> omega

/-- Every position inside the maximal run satisfies the predicate. -/
theorem runLen_sat (p : Char → Bool) :
    ∀ (cs : List Char) (i : Nat), i < runLen p cs →
      ∃ c, cs.get? i = some c ∧ p c = true := by
  intro cs
  induction cs with
  | nil => intro i h; simp [runLen, List.takeWhile] at h
  | cons c rest ih =>
    intro i h
    rw [runLen_cons] at h
    cases hp : p c with
    | false => rw [hp] at h; simp at h
    | true =>
      rw [hp] at h
      simp only [if_pos] at h
      cases i with
      | zero => exact ⟨c, rfl, hp⟩
      | succ i' => exact ih i' (by omega)

/-- Runs are determined pointwise: a block of satisfying characters
terminated by a failing one (or by the end) is the maximal run. -/
theorem runLen_eq_of (p : Char → Bool) :
    ∀ (cs : List Char) (s : Nat),
      (∀ i < s, ∃ c, cs.get? i = some c ∧ p c = true) →
      (cs.get? s = none ∨ ∃ c, cs.get? s = some c ∧ p c = false) →
      runLen p cs = s := by
  intro cs
  induction cs with
  | nil =>
    intro s hsat _
    cases s with
    | zero => rfl
    | succ s' =>
      rcases hsat 0 (Nat.succ_pos s') with ⟨c, hc, _⟩
      cases hc
  | cons c rest ih =>
    intro s hsat hstop
    rw [runLen_cons]
    cases s with
    | zero =>
      rcases hstop with h | ⟨d, hd, hpd⟩
      · cases h
      · obtain rfl : c = d := by simpa using hd
        simp [hpd]
    | succ s' =>
      rcases hsat 0 (Nat.succ_pos s') with ⟨d, hd, hpd⟩
      obtain rfl : c = d := by simpa using hd
      rw [hpd, if_pos rfl]
      have hrec : runLen p rest = s' := by
        refine ih s' ?_ ?_
        · intro i hi
          rcases hsat (i + 1) (by omega) with ⟨e, he, hpe⟩
          exact ⟨e, by simpa using he, hpe⟩
        · rcases hstop with h | ⟨e, he, hpe⟩
          · left; simpa using h
          · right; exact ⟨e, by simpa using he, hpe⟩
      omega

/-- A pointwise-satisfying block bounds the maximal run from below. -/
theorem runLen_ge_of (p : Char → Bool) :
    ∀ (cs : List Char) (s : Nat),
      (∀ i < s, ∃ c, cs.get? i = some c ∧ p c = true) →
      s ≤ runLen p cs := by
  intro cs
  induction cs with
  | nil =>
    intro s hsat
    cases s with
    | zero => exact Nat.le_refl 0
    | succ s' =>
      rcases hsat 0 (Nat.succ_pos s') with ⟨c, hc, _⟩
      cases hc
  | cons c rest ih =>
    intro s hsat
    rw [runLen_cons]
    cases s with
    | zero => exact Nat.zero_le _
    | succ s' =>
      rcases hsat 0 (Nat.succ_pos s') with ⟨d, hd, hpd⟩
      obtain rfl : c = d := by simpa using hd
      rw [hpd, if_pos rfl]
      have hrec : s' ≤ runLen p rest := by
        refine ih s' ?_
        intro i hi
        rcases hsat (i + 1) (by omega) with ⟨e, he, hpe⟩
        exact ⟨e, by simpa using he, hpe⟩
      omega

/-- Run length over an all-satisfying prefix followed by a failing
character. -/
theorem runLen_append_sat (p : Char → Bool) (sps : List Char) (d : Char)
    (rest : List Char) (hall : ∀ c ∈ sps, p c = true) (hd : p d = false) :
    runLen p (sps ++ d :: rest) = sps.length := by
  refine runLen_eq_of p _ _ ?_ ?_
  · intro i hi
    rw [get?_append_lt sps (d :: rest) i hi]
    rcases List.get?_eq_get hi with h
    exact ⟨sps.get ⟨i, hi⟩, h, hall _ (sps.get_mem _ _)⟩
  · right
    refine ⟨d, ?_, hd⟩
    rw [get?_append_ge sps (d :: rest) sps.length (Nat.le_refl _)]
    simp

end CognitoFlow

namespace CognitoFlow

/-- A successful digit take splits the text as a block of digits followed
by the returned remainder. -/
theorem takeDigits_sound :
    ∀ (k : Nat) (cs r : List Char), takeDigits k cs = some r →
      ∃ ds, cs = ds ++ r ∧ ds.length = k ∧ ∀ c ∈ ds, c.isDigit = true := by
  intro k
  induction k with
  | zero =>
    intro cs r h
    refine ⟨[], ?_, rfl, by simp⟩
    simpa [takeDigits] using h
  | succ k' ih =>
    intro cs r h
    cases cs with
    | nil => cases h
    | cons c rest =>
      rw [takeDigits] at h
      cases hd : c.isDigit with
      | false => rw [hd] at h; simp at h
      | true =>
        rw [hd] at h
        simp only [if_pos] at h
        rcases ih rest r h with ⟨ds, hsplit, hlen, hall⟩
        refine ⟨c :: ds, by simp [hsplit], by simp [hlen], ?_⟩
        intro e he
        rcases List.mem_cons.mp he with rfl | he'
        · exact hd
        · exact hall e he'

/-- A block of digits of the right length is taken in full. -/
theorem takeDigits_complete :
    ∀ (ds r : List Char), (∀ c ∈ ds, c.isDigit = true) →
      takeDigits ds.length (ds ++ r) = some r := by
  intro ds
  induction ds with
  | nil => intro r _; rfl
  | cons c rest ih =>
    intro r hall
    have hd : c.isDigit = true := hall c (by simp)
    rw [List.length_cons, List.cons_append, takeDigits, hd, if_pos rfl]
    exact ih r (fun e he => hall e (by simp [he]))

/-- A satisfied shape splits the text as a matched block and a rest. -/
theorem matchShape_sound :
    ∀ (shape : List (Char → Bool)) (cs : List Char), matchShape shape cs = true →
      ∃ pre post, cs = pre ++ post ∧
        List.Forall₂ (fun sp c => sp c = true) shape pre := by
  intro shape
  induction shape with
  | nil => intro cs _; exact ⟨[], cs, rfl, List.Forall₂.nil⟩
  | cons sp sps ih =>
    intro cs h
    cases cs with
    | nil => cases h
    | cons c rest =>
      rw [matchShape] at h
      rcases Bool.and_eq_true_iff.mp h with ⟨h1, h2⟩
      rcases ih rest h2 with ⟨pre, post, hsplit, hfa⟩
      exact ⟨c :: pre, post, by simp [hsplit], List.Forall₂.cons h1 hfa⟩

/-- A pointwise-satisfying block satisfies the shape, whatever follows. -/
theorem matchShape_complete :
    ∀ (shape : List (Char → Bool)) (pre post : List Char),
      List.Forall₂ (fun sp c => sp c = true) shape pre →
      matchShape shape (pre ++ post) = true := by
  intro shape
  induction shape with
  | nil => intro pre post _; rfl
  | cons sp sps ih =>
    intro pre post hfa
    cases hfa with
    | cons h1 h2 =>
      rw [List.cons_append, matchShape]
      exact Bool.and_eq_true_iff.mpr ⟨h1, ih _ post h2⟩

/-- A shape fails on a text whose head its first class rejects. -/
theorem matchShape_head_false (sp : Char → Bool) (sps : List (Char → Bool))
    (c : Char) (u : List Char) (h : sp c = false) :
    matchShape (sp :: sps) (c :: u) = false := by
  rw [matchShape, h]
  rfl

end CognitoFlow

namespace CognitoFlow

/-- Character-class facts used to keep matches away from the placeholder
brackets and to make separator decisions deterministic. -/
theorem alpha_not_digit {c : Char} (h : c.isAlpha = true) : c.isDigit = false := by
  cases hd : c.isDigit with
  | false => rfl
  | true =>
    exfalso
    simp only [Char.isDigit, Bool.and_eq_true, decide_eq_true_eq] at hd
    simp only [Char.isAlpha, Char.isUpper, Char.isLower, Bool.or_eq_true,
      Bool.and_eq_true, decide_eq_true_eq] at h
    rcases hd with ⟨h1, h2⟩
    have n1 : 48 ≤ c.val.toNat := h1
    have n2 : c.val.toNat ≤ 57 := h2
    rcases h with ⟨h3, _⟩ | ⟨h3, _⟩
    · have n3 : 65 ≤ c.val.toNat := h3
      omega
    · have n3 : 97 ≤ c.val.toNat := h3
      omega

/-- A space character is one of six concrete characters. -/
theorem space_cases {c : Char} (h : isSpaceChar c = true) :
    c = ' ' ∨ c = '\t' ∨ c = '\n' ∨ c = '\x0b' ∨ c = '\x0c' ∨ c = '\r' := by
  simp only [isSpaceChar, Bool.or_eq_true, beq_iff_eq] at h
  tauto

/-- Digits are never separator characters. -/
theorem digit_not_sep {c : Char} (h : c.isDigit = true) :
    (isSpaceChar c || c == '-') = false := by
  cases hs : isSpaceChar c with
  | true =>
    exfalso
    rcases space_cases hs with rfl | rfl | rfl | rfl | rfl | rfl <;> simp at h
  | false =>
    cases he : c == '-' with
    | true =>
      exfalso
      have : c = '-' := by simpa using he
      subst this
      simp at h
    | false => rfl

/-- Digits are not space characters. -/
theorem digit_not_space {c : Char} (h : c.isDigit = true) :
    isSpaceChar c = false := by
  have := digit_not_sep h
  rcases Bool.or_eq_false_iff.mp this with ⟨h1, _⟩
  exact h1

end CognitoFlow

namespace CognitoFlow

/-- Transport of a trailing word boundary from the bracket text to the
general text: inside the shared prefix the characters agree, and at its
very end the boundary hypothesis about the new character applies. -/
theorem trail_boundary_transfer {p : Option Char} {A w z : List Char} {g : Char}
    {n : Nat} (hn1 : 1 ≤ n) (hnA : n ≤ A.length)
    (hb : boundaryB (lastCtx p A) (some g) = true)
    (hbound : boundaryB ((A ++ '[' :: w).get? (n - 1)) ((A ++ '[' :: w).get? n) = true) :
    boundaryB ((A ++ g :: z).get? (n - 1)) ((A ++ g :: z).get? n) = true := by
  have hA : A ≠ [] := by
    intro hA
    subst hA
    simp at hnA
    omega
  have h1 : (A ++ g :: z).get? (n - 1) = (A ++ '[' :: w).get? (n - 1) :=
    (get?_agree A ('[' :: w) (g :: z) (n - 1) (by omega)).symm
  rcases Nat.lt_or_ge n A.length with hlt | hge
  · rw [h1, get?_agree A (g :: z) ('[' :: w) n hlt]
    exact hbound
  · have heq : n = A.length := Nat.le_antisymm hnA hge
    have h2 : (A ++ g :: z).get? n = some g := by
      rw [get?_append_ge A (g :: z) n (by omega), heq]
      simp
    have hctx : lastCtx p A = (A ++ '[' :: w).get? (n - 1) := by
      rw [lastCtx_eq_get? p A hA, get?_append_lt A ('[' :: w) (n - 1) (by omega), heq]
    rw [h1, h2, ← hctx]
    exact hb

/-- The head boundary read by a matcher is unchanged when the text past a
nonempty shared prefix changes. -/
theorem head_boundary_transfer {A u v : List Char} (hA : A ≠ [])
    (p : Option Char) (h : boundaryB p (A ++ u).head? = true) :
    boundaryB p (A ++ v).head? = true := by
  rw [head?_agree A v u hA]
  exact h

end CognitoFlow

namespace CognitoFlow

/-- Word boundaries depend on the previous character only through its
word-character status. -/
theorem boundaryB_congr (p q x : Option Char) (h : wordOpt p = wordOpt q) :
    boundaryB p x = boundaryB q x := by
  rw [boundaryB, boundaryB, h]

/-- Unpacking a successful fixed-shape match. -/
theorem matchFixedAt_sound {shape : List (Char → Bool)} {prev : Option Char}
    {cs : List Char} {n : Nat} (h : matchFixedAt shape prev cs = some n) :
    n = shape.length ∧ boundaryB prev cs.head? = true ∧
    matchShape shape cs = true ∧
    boundaryB (cs.get? (shape.length - 1)) (cs.get? shape.length) = true := by
  rw [matchFixedAt] at h
  split at h
  · rename_i hc
    cases h
    rcases Bool.and_eq_true_iff.mp hc with ⟨hc1, h3⟩
    rcases Bool.and_eq_true_iff.mp hc1 with ⟨h1, h2⟩
    exact ⟨rfl, h1, h2, h3⟩
  · cases h

/-- Building a fixed-shape match from its components. -/
theorem matchFixedAt_complete {shape : List (Char → Bool)} {prev : Option Char}
    {cs : List Char} (h1 : boundaryB prev cs.head? = true)
    (h2 : matchShape shape cs = true)
    (h3 : boundaryB (cs.get? (shape.length - 1)) (cs.get? shape.length) = true) :
    matchFixedAt shape prev cs = some shape.length := by
  rw [matchFixedAt, if_pos]
  rw [h1, h2, h3]
  rfl

/-- A pointwise-matched block avoids any character all classes reject. -/
theorem forall₂_avoid {shape : List (Char → Bool)} {pre : List Char} {x : Char}
    (hfa : List.Forall₂ (fun sp c => sp c = true) shape pre)
    (hrej : ∀ sp ∈ shape, sp x = false) : ∀ c ∈ pre, c ≠ x := by
  induction hfa with
  | nil => simp
  | @cons sp c sps cst h1 _ ih =>
    intro e he
    rcases List.mem_cons.mp he with rfl | he'
    · intro hx
      subst hx
      rw [hrej sp (by simp)] at h1
      cases h1
    · exact ih (fun sq hq => hrej sq (by simp [hq])) e he'

/-- The matcher-fact bundle for a fixed-shape pattern whose first class
rejects letters and whose classes all reject the square brackets. -/
theorem matchFixedAt_ok (sp0 : Char → Bool) (shp : List (Char → Bool))
    (hsp0 : ∀ c, c.isAlpha = true → sp0 c = false)
    (hsp0L : sp0 '[' = false) (hsp0R : sp0 ']' = false)
    (hrejL : ∀ sp ∈ sp0 :: shp, sp '[' = false) :
    MatcherOk (matchFixedAt (sp0 :: shp)) := by
  constructor
  · -- not_zero
    intro p cs h
    rcases matchFixedAt_sound h with ⟨hn, _, _, _⟩
    simp at hn
  · -- le_length
    intro p cs n h
    rcases matchFixedAt_sound h with ⟨hn, _, hsh, _⟩
    rcases matchShape_sound _ _ hsh with ⟨pre, post, hsplit, hfa⟩
    have hle := hfa.length_eq
    simp only [List.length_cons] at hle
    subst hn
    rw [hsplit]
    simp
    omega
  · -- empty_none
    intro p
    simp [matchFixedAt, matchShape]
  · -- no_bound_none
    intro p cs h
    simp [matchFixedAt, h]
  · -- ctx_congr
    intro p q cs h
    simp only [matchFixedAt, boundaryB_congr p q cs.head? h]
  · -- bracketL
    intro p u
    simp [matchFixedAt, matchShape_head_false _ _ _ _ hsp0L]
  · -- bracketR
    intro p u
    simp [matchFixedAt, matchShape_head_false _ _ _ _ hsp0R]
  · -- alpha_tail
    intro p ls u hne hall
    cases ls with
    | nil => exact absurd rfl hne
    | cons d t =>
      have hd : sp0 d = false := hsp0 d (hall d (by simp))
      rw [List.cons_append]
      simp [matchFixedAt, matchShape_head_false _ _ _ _ hd]
  · -- trail_bound
    intro p cs n h
    rcases matchFixedAt_sound h with ⟨hn, _, _, hb⟩
    subst hn
    exact hb
  · -- transfer
    intro p A w z g hb hsome
    rcases Option.isSome_iff_exists.mp hsome with ⟨n, hmatch⟩
    rcases matchFixedAt_sound hmatch with ⟨hn, hhead, hsh, htrail⟩
    rcases matchShape_sound _ _ hsh with ⟨pre, post, hsplit, hfa⟩
    have hplen : pre.length = (sp0 :: shp).length := hfa.length_eq.symm
    have havoid : ∀ c ∈ pre, c ≠ '[' := forall₂_avoid hfa hrejL
    have hpleA : pre.length ≤ A.length := pre_length_le hsplit havoid
    rcases append_eq_extract hsplit hpleA with ⟨mid, hA, hpost⟩
    have hA_ne : A ≠ [] := by
      intro h0
      rw [h0] at hpleA
      simp at hpleA
      rw [hpleA] at hplen
      simp at hplen
    have hsh' : matchShape (sp0 :: shp) (A ++ g :: z) = true := by
      rw [hA, List.append_assoc]
      exact matchShape_complete _ _ _ hfa
    have hhead' : boundaryB p (A ++ g :: z).head? = true :=
      head_boundary_transfer hA_ne p hhead
    have htrail' : boundaryB ((A ++ g :: z).get? ((sp0 :: shp).length - 1))
        ((A ++ g :: z).get? (sp0 :: shp).length) = true := by
      refine trail_boundary_transfer ?_ ?_ hb htrail
      · simp
      · omega
    rw [matchFixedAt_complete hhead' hsh' htrail']
    rfl

end CognitoFlow

namespace CognitoFlow

/-- The SSN matcher satisfies the bundle. -/
theorem matchSSNAt_ok : MatcherOk matchSSNAt := by
  have h := matchFixedAt_ok Char.isDigit
    [Char.isDigit, Char.isDigit, (· == '-'),
     Char.isDigit, Char.isDigit, (· == '-'),
     Char.isDigit, Char.isDigit, Char.isDigit, Char.isDigit]
    (fun c hc => alpha_not_digit hc) (by decide) (by decide)
    (by intro sp hsp; fin_cases hsp <;> decide)
  exact h

/-- The fixed phone alternative satisfies the bundle. -/
theorem matchPhoneFixed_ok : MatcherOk (matchFixedAt phoneShape) := by
  have h := matchFixedAt_ok Char.isDigit
    [Char.isDigit, Char.isDigit, (· == '-'),
     Char.isDigit, Char.isDigit, Char.isDigit, (· == '-'),
     Char.isDigit, Char.isDigit, Char.isDigit, Char.isDigit]
    (fun c hc => alpha_not_digit hc) (by decide) (by decide)
    (by intro sp hsp; fin_cases hsp <;> decide)
  exact h

end CognitoFlow

namespace CognitoFlow

/-- Every character of the maximal-run prefix satisfies the predicate. -/
theorem take_run_sat (p : Char → Bool) (cs : List Char) :
    ∀ c ∈ cs.take (runLen p cs), p c = true := by
  intro c hc
  rcases List.getElem?_of_mem hc with ⟨i, hget⟩
  have hi : i < runLen p cs := by
    have h1 := (List.getElem?_eq_some.mp hget).1
    simp only [List.length_take] at h1
    omega
  rw [List.getElem?_take_of_lt hi] at hget
  rcases runLen_sat p cs i hi with ⟨c', hc', hpc⟩
  rw [List.get?_eq_getElem?] at hc'
  rw [hget] at hc'
  cases hc'
  exact hpc

end CognitoFlow

namespace CognitoFlow

/-- Unpacking a successful parenthesised phone match. -/
theorem matchPhoneParenAt_sound {prev : Option Char} {cs : List Char} {n : Nat}
    (h : matchPhoneParenAt prev cs = some n) :
    boundaryB prev cs.head? = true ∧
    ∃ d3 sps d3p d4 r5,
      cs = '(' :: (d3 ++ ')' :: (sps ++ (d3p ++ '-' :: (d4 ++ r5)))) ∧
      d3.length = 3 ∧ (∀ c ∈ d3, c.isDigit = true) ∧
      (∀ c ∈ sps, isSpaceChar c = true) ∧
      d3p.length = 3 ∧ (∀ c ∈ d3p, c.isDigit = true) ∧
      d4.length = 4 ∧ (∀ c ∈ d4, c.isDigit = true) ∧
      n = 13 + sps.length ∧
      boundaryB (cs.get? (n - 1)) (cs.get? n) = true := by
  cases cs with
  | nil =>
    rw [matchPhoneParenAt] at h
    split at h
    · cases h
    · cases h
    · intro r hr
      simp at hr
  | cons c r1 =>
    by_cases hc : c = '('
    · subst hc
      rw [matchPhoneParenAt] at h
      split at h
      · cases h
      · rename_i hguard
        have hb : boundaryB prev ('(' :: r1).head? = true := by
          cases hB : boundaryB prev (('(' :: r1) : List Char).head?
          · rw [hB] at hguard
            simp at hguard
          · rfl
        split at h
        · rename_i r2 heq2
          simp only [] at h
          split at h
          · rename_i r4 heq3
            split at h
            · rename_i r5 heq4
              split at h
              · rename_i hbd
                have hn : n = ('(' :: r1).length - r5.length := (Option.some.inj h).symm
                rcases takeDigits_sound 3 r1 _ heq2 with ⟨d3, hr1, hd3len, hd3dig⟩
                rcases takeDigits_sound 3 _ _ heq3 with ⟨d3p, hr3, h3plen, h3pdig⟩
                rcases takeDigits_sound 4 r4 _ heq4 with ⟨d4, hr4, h4len, h4dig⟩
                have hslen : (r2.take (runLen isSpaceChar r2)).length =
                    runLen isSpaceChar r2 := by
                  have := runLen_le_length isSpaceChar r2
                  simp [List.length_take]
                  omega
                have hr2 : r2 = r2.take (runLen isSpaceChar r2) ++
                    (d3p ++ '-' :: (d4 ++ r5)) := by
                  conv_lhs => rw [← List.take_append_drop (runLen isSpaceChar r2) r2]
                  rw [hr3, hr4]
                have hshape : ('(' :: r1 : List Char) =
                    '(' :: (d3 ++ ')' :: (r2.take (runLen isSpaceChar r2) ++
                      (d3p ++ '-' :: (d4 ++ r5)))) := by
                  rw [hr1, ← hr2]
                have hlen1 : r1.length = 12 + (r2.take (runLen isSpaceChar r2)).length
                    + r5.length := by
                  have := congrArg List.length hshape
                  simp only [List.length_cons, List.length_append] at this
                  omega
                have hn' : n = 13 + (r2.take (runLen isSpaceChar r2)).length := by
                  rw [hn]
                  simp only [List.length_cons]
                  omega
                refine ⟨hb, d3, r2.take (runLen isSpaceChar r2), d3p, d4, r5, hshape,
                  hd3len, hd3dig, take_run_sat isSpaceChar r2, h3plen, h3pdig,
                  h4len, h4dig, hn', ?_⟩
                have hlen2 : ('(' :: r1).length - r5.length = n := hn.symm
                rw [hlen2] at hbd
                exact hbd
              · cases h
            · cases h
          · cases h
        · cases h
    · rw [matchPhoneParenAt] at h
      split at h
      · cases h
      · cases h
      · intro r1x heqx
        rw [List.cons.injEq] at heqx
        exact absurd heqx.1 hc

end CognitoFlow

namespace CognitoFlow

/-- Building a parenthesised phone match from its components.  The digit
following the space run keeps the run deterministic. -/
theorem matchPhoneParenAt_complete {prev : Option Char} {cs : List Char}
    {d3 sps dt d4 r5 : List Char} {dh : Char}
    (hcs : cs = '(' :: (d3 ++ ')' :: (sps ++ ((dh :: dt) ++ '-' :: (d4 ++ r5)))))
    (hb : boundaryB prev cs.head? = true)
    (hd3len : d3.length = 3) (hd3dig : ∀ c ∈ d3, c.isDigit = true)
    (hsps : ∀ c ∈ sps, isSpaceChar c = true)
    (h3plen : (dh :: dt : List Char).length = 3)
    (h3pdig : ∀ c ∈ (dh :: dt : List Char), c.isDigit = true)
    (h4len : d4.length = 4) (h4dig : ∀ c ∈ d4, c.isDigit = true)
    (hbd : boundaryB (cs.get? (13 + sps.length - 1)) (cs.get? (13 + sps.length)) = true) :
    matchPhoneParenAt prev cs = some (13 + sps.length) := by
  subst hcs
  rw [matchPhoneParenAt, if_neg (by rw [hb]; simp)]
  have ht1 : takeDigits 3 (d3 ++ ')' :: (sps ++ ((dh :: dt) ++ '-' :: (d4 ++ r5))))
      = some (')' :: (sps ++ ((dh :: dt) ++ '-' :: (d4 ++ r5)))) := by
    rw [← hd3len]
    exact takeDigits_complete d3 _ hd3dig
  have hrun : runLen isSpaceChar (sps ++ ((dh :: dt) ++ '-' :: (d4 ++ r5)))
      = sps.length := by
    have hre : sps ++ ((dh :: dt) ++ '-' :: (d4 ++ r5))
        = sps ++ dh :: (dt ++ '-' :: (d4 ++ r5)) := by simp
    rw [hre]
    exact runLen_append_sat _ _ _ _ hsps (digit_not_space (h3pdig dh (by simp)))
  have ht2 : takeDigits 3 ((dh :: dt) ++ '-' :: (d4 ++ r5))
      = some ('-' :: (d4 ++ r5)) := by
    rw [← h3plen]
    exact takeDigits_complete (dh :: dt) _ h3pdig
  have ht3 : takeDigits 4 (d4 ++ r5) = some r5 := by
    rw [← h4len]
    exact takeDigits_complete d4 _ h4dig
  simp only [ht1, hrun, List.drop_left, ht2, ht3]
  have hlen : ('(' :: (d3 ++ ')' :: (sps ++ ((dh :: dt) ++ '-' :: (d4 ++ r5))))
      : List Char).length - r5.length = 13 + sps.length := by
    have h3plen' : dt.length = 2 := by
      simp only [List.length_cons] at h3plen
      omega
    simp only [List.length_cons, List.length_append]
    omega
  rw [hlen, if_pos hbd]

end CognitoFlow

namespace CognitoFlow

/-- The parenthesised phone pattern fails unless the text starts with an
opening parenthesis. -/
theorem matchPhoneParenAt_head_ne {c : Char} (hc : c ≠ '(') (p : Option Char)
    (u : List Char) : matchPhoneParenAt p (c :: u) = none := by
  rw [matchPhoneParenAt]
  split
  · rfl
  · rfl
  · intro r1 heq
    rw [List.cons.injEq] at heq
    exact absurd heq.1 hc

/-- The parenthesised phone pattern fails on the empty text. -/
theorem matchPhoneParenAt_nil (p : Option Char) :
    matchPhoneParenAt p [] = none := by
  rw [matchPhoneParenAt]
  split
  · rfl
  · rfl
  · intro r1 heq
    simp at heq

end CognitoFlow

namespace CognitoFlow

/-- Characters of the parenthesised phone block are never brackets. -/
theorem paren_pre_avoid {d3 sps d3p d4 : List Char}
    (hd3dig : ∀ c ∈ d3, c.isDigit = true)
    (hsps : ∀ c ∈ sps, isSpaceChar c = true)
    (h3pdig : ∀ c ∈ d3p, c.isDigit = true)
    (h4dig : ∀ c ∈ d4, c.isDigit = true) :
    ∀ c ∈ ('(' :: (d3 ++ ')' :: (sps ++ (d3p ++ '-' :: d4))) : List Char),
      c ≠ '[' := by
  intro c hc
  intro heq
  subst heq
  have hLdig : ('[' : Char).isDigit = false := by decide
  have hLsp : isSpaceChar '[' = false := by decide
  simp only [List.mem_cons, List.mem_append] at hc
  rcases hc with h | h | h | h | h | h | h
  · cases h
  · rw [hd3dig _ h] at hLdig; cases hLdig
  · cases h
  · rw [hsps _ h] at hLsp; cases hLsp
  · rw [h3pdig _ h] at hLdig; cases hLdig
  · cases h
  · rw [h4dig _ h] at hLdig; cases hLdig

/-- The parenthesised phone matcher satisfies the bundle. -/
theorem matchPhoneParenAt_ok : MatcherOk matchPhoneParenAt := by
  constructor
  · -- not_zero
    intro p cs h
    rcases matchPhoneParenAt_sound h with ⟨_, _, sps, _, _, _, _, _, _, _, _, _, _, _, hn, _⟩
    omega
  · -- le_length
    intro p cs n h
    rcases matchPhoneParenAt_sound h with
      ⟨_, d3, sps, d3p, d4, r5, hshape, hd3len, _, _, h3plen, _, h4len, _, hn, _⟩
    have := congrArg List.length hshape
    simp only [List.length_cons, List.length_append] at this
    omega
  · -- empty_none
    intro p
    exact matchPhoneParenAt_nil p
  · -- no_bound_none
    intro p cs h
    cases cs with
    | nil => exact matchPhoneParenAt_nil p
    | cons c u =>
      by_cases hc : c = '('
      · subst hc
        rw [matchPhoneParenAt, if_pos (by rw [h]; rfl)]
      · exact matchPhoneParenAt_head_ne hc p u
  · -- ctx_congr
    intro p q cs h
    simp only [matchPhoneParenAt, boundaryB_congr p q cs.head? h]
  · -- bracketL
    intro p u
    exact matchPhoneParenAt_head_ne (by decide) p u
  · -- bracketR
    intro p u
    exact matchPhoneParenAt_head_ne (by decide) p u
  · -- alpha_tail
    intro p ls u hne hall
    cases ls with
    | nil => exact absurd rfl hne
    | cons d t =>
      have hd : d ≠ '(' := by
        intro hdeq
        subst hdeq
        have := hall '(' (by simp)
        simp at this
      rw [List.cons_append]
      exact matchPhoneParenAt_head_ne hd p _
  · -- trail_bound
    intro p cs n h
    exact (matchPhoneParenAt_sound h).2.choose_spec.choose_spec.choose_spec.choose_spec.choose_spec.2.2.2.2.2.2.2.2.2
  · -- transfer
    intro p A w z g hb hsome
    rcases Option.isSome_iff_exists.mp hsome with ⟨n, hmatch⟩
    rcases matchPhoneParenAt_sound hmatch with
      ⟨hhead, d3, sps, d3p, d4, r5, hshape, hd3len, hd3dig, hsps, h3plen, h3pdig,
       h4len, h4dig, hn, hbd⟩
    cases d3p with
    | nil => simp at h3plen
    | cons dh dt =>
      have hpre : A ++ '[' :: w =
          ('(' :: (d3 ++ ')' :: (sps ++ ((dh :: dt) ++ '-' :: d4)))) ++ r5 := by
        rw [hshape]
        simp
      have havoid := paren_pre_avoid hd3dig hsps h3pdig h4dig
      have hpleA : ('(' :: (d3 ++ ')' :: (sps ++ ((dh :: dt) ++ '-' :: d4)))
          : List Char).length ≤ A.length := pre_length_le hpre havoid
      have hprelen : ('(' :: (d3 ++ ')' :: (sps ++ ((dh :: dt) ++ '-' :: d4)))
          : List Char).length = n := by
        simp only [List.length_cons, List.length_append] at hpleA ⊢
        simp only [List.length_cons] at h3plen
        omega
      rcases append_eq_extract hpre hpleA with ⟨mid, hA, hpost⟩
      have hA_ne : A ≠ [] := by
        intro h0
        rw [h0] at hpleA
        simp at hpleA
      have hcs' : A ++ g :: z =
          '(' :: (d3 ++ ')' :: (sps ++ ((dh :: dt) ++ '-' :: (d4 ++ (mid ++ g :: z))))) := by
        rw [hA]
        simp
      have hn13 : n = 13 + sps.length := hn
      have hbd' : boundaryB ((A ++ g :: z).get? (n - 1)) ((A ++ g :: z).get? n) = true := by
        refine trail_boundary_transfer ?_ ?_ hb hbd
        · omega
        · omega
      have hcomp := matchPhoneParenAt_complete hcs'
        (head_boundary_transfer hA_ne p hhead) hd3len hd3dig hsps h3plen h3pdig
        h4len h4dig (by rw [← hn13]; exact hbd')
      rw [hcomp]
      rfl

end CognitoFlow

namespace CognitoFlow

/-- The phone matcher yields the fixed alternative when it succeeds. -/
theorem matchPhoneAt_of_fixed {p : Option Char} {cs : List Char} {n : Nat}
    (h : matchFixedAt phoneShape p cs = some n) : matchPhoneAt p cs = some n := by
  rw [matchPhoneAt, h]

/-- The phone matcher falls back to the parenthesised alternative. -/
theorem matchPhoneAt_of_none {p : Option Char} {cs : List Char}
    (h : matchFixedAt phoneShape p cs = none) :
    matchPhoneAt p cs = matchPhoneParenAt p cs := by
  rw [matchPhoneAt, h]

/-- The phone matcher satisfies the bundle. -/
theorem matchPhoneAt_ok : MatcherOk matchPhoneAt := by
  have hF := matchPhoneFixed_ok
  have hP := matchPhoneParenAt_ok
  constructor
  · intro p cs h
    cases hf : matchFixedAt phoneShape p cs with
    | some m =>
      rw [matchPhoneAt_of_fixed hf] at h
      rw [h] at hf
      exact hF.not_zero p cs hf
    | none =>
      rw [matchPhoneAt_of_none hf] at h
      exact hP.not_zero p cs h
  · intro p cs n h
    cases hf : matchFixedAt phoneShape p cs with
    | some m =>
      rw [matchPhoneAt_of_fixed hf] at h
      rw [h] at hf
      exact hF.le_length p cs n hf
    | none =>
      rw [matchPhoneAt_of_none hf] at h
      exact hP.le_length p cs n h
  · intro p
    rw [matchPhoneAt_of_none (hF.empty_none p)]
    exact hP.empty_none p
  · intro p cs h
    rw [matchPhoneAt_of_none (hF.no_bound_none p cs h)]
    exact hP.no_bound_none p cs h
  · intro p q cs h
    rw [matchPhoneAt, matchPhoneAt, hF.ctx_congr p q cs h, hP.ctx_congr p q cs h]
  · intro p u
    rw [matchPhoneAt_of_none (hF.bracketL p u)]
    exact hP.bracketL p u
  · intro p u
    rw [matchPhoneAt_of_none (hF.bracketR p u)]
    exact hP.bracketR p u
  · intro p ls u hne hall
    rw [matchPhoneAt_of_none (hF.alpha_tail p ls u hne hall)]
    exact hP.alpha_tail p ls u hne hall
  · intro p cs n h
    cases hf : matchFixedAt phoneShape p cs with
    | some m =>
      rw [matchPhoneAt_of_fixed hf] at h
      rw [h] at hf
      exact hF.trail_bound p cs n hf
    | none =>
      rw [matchPhoneAt_of_none hf] at h
      exact hP.trail_bound p cs n h
  · intro p A w z g hb hsome
    cases hf : matchFixedAt phoneShape p (A ++ '[' :: w) with
    | some m =>
      have hs : (matchFixedAt phoneShape p (A ++ '[' :: w)).isSome = true := by
        rw [hf]; rfl
      have := hF.transfer p A w z g hb hs
      rcases Option.isSome_iff_exists.mp this with ⟨m', hm'⟩
      rw [matchPhoneAt_of_fixed hm']
      rfl
    | none =>
      rw [matchPhoneAt_of_none hf] at hsome
      have := hP.transfer p A w z g hb hsome
      cases hf' : matchFixedAt phoneShape p (A ++ g :: z) with
      | some m' =>
        rw [matchPhoneAt_of_fixed hf']
        rfl
      | none =>
        rw [matchPhoneAt_of_none hf']
        exact this

end CognitoFlow

namespace CognitoFlow

/-- Shape of the characters consumed by `k` card groups: each group is an
optional separator and four digits. -/
def cardShape : Nat → List Char → Prop
  | 0, consumed => consumed = []
  | k + 1, consumed => ∃ sep digits rest2,
      consumed = sep ++ (digits ++ rest2) ∧
      (sep = [] ∨ ∃ c, sep = [c] ∧ (isSpaceChar c || c == '-') = true) ∧
      digits.length = 4 ∧ (∀ c ∈ digits, c.isDigit = true) ∧
      cardShape k rest2

/-- Characters consumed by card groups are digits or separators. -/
theorem cardShape_chars :
    ∀ (k : Nat) (pre : List Char), cardShape k pre →
      ∀ c ∈ pre, c.isDigit = true ∨ (isSpaceChar c || c == '-') = true := by
  intro k
  induction k with
  | zero =>
    intro pre hp c hc
    rw [cardShape] at hp
    subst hp
    cases hc
  | succ k' ih =>
    intro pre hp c hc
    rw [cardShape] at hp
    rcases hp with ⟨sep, digits, rest2, hsplit, hsep, _, hdig, hrec⟩
    subst hsplit
    rcases List.mem_append.mp hc with h | h
    · rcases hsep with rfl | ⟨d, rfl, hd⟩
      · cases h
      · rcases List.mem_singleton.mp h with rfl
        exact Or.inr hd
    · rcases List.mem_append.mp h with h' | h'
      · exact Or.inl (hdig c h')
      · exact ih rest2 hrec c h'

/-- A successful group take splits the text as the consumed block and the
returned remainder. -/
theorem cardGroups_sound :
    ∀ (k : Nat) (cs0 r : List Char), cardGroups k cs0 = some r →
      ∃ pre, cs0 = pre ++ r ∧ cardShape k pre := by
  intro k
  induction k with
  | zero =>
    intro cs0 r h
    rw [cardGroups] at h
    exact ⟨[], by simpa using Option.some.inj h, rfl⟩
  | succ k' ih =>
    intro cs0 r h
    cases cs0 with
    | nil =>
      rw [cardGroups] at h
      simp [takeDigits] at h
    | cons c rest =>
      simp only [cardGroups] at h
      split at h
      · rename_i r1 heq
        split at heq
        · rename_i hsp
          rcases ih r1 r h with ⟨pre', hr1, hshape⟩
          rcases takeDigits_sound 4 rest r1 heq with ⟨ds, hrest, hdslen, hdsdig⟩
          refine ⟨[c] ++ (ds ++ pre'), ?_, ?_⟩
          · rw [hrest, hr1]
            simp
          · rw [cardShape]
            exact ⟨[c], ds, pre', by simp, Or.inr ⟨c, rfl, hsp⟩, hdslen, hdsdig, hshape⟩
        · rename_i hsp
          rcases ih r1 r h with ⟨pre', hr1, hshape⟩
          rcases takeDigits_sound 4 (c :: rest) r1 heq with ⟨ds, hrest, hdslen, hdsdig⟩
          refine ⟨ds ++ pre', ?_, ?_⟩
          · rw [hrest, hr1]
            simp
          · rw [cardShape]
            exact ⟨[], ds, pre', by simp, Or.inl rfl, hdslen, hdsdig, hshape⟩
      · cases h

/-- The group take consumes a block of the right shape in full. -/
theorem cardGroups_complete :
    ∀ (k : Nat) (pre r : List Char), cardShape k pre →
      cardGroups k (pre ++ r) = some r := by
  intro k
  induction k with
  | zero =>
    intro pre r hp
    rw [cardShape] at hp
    subst hp
    rfl
  | succ k' ih =>
    intro pre r hp
    rw [cardShape] at hp
    rcases hp with ⟨sep, digits, rest2, hsplit, hsep, hdlen, hdig, hrec⟩
    subst hsplit
    cases digits with
    | nil => simp at hdlen
    | cons dh dt =>
      have hdh : (isSpaceChar dh || dh == '-') = false :=
        digit_not_sep (hdig dh (by simp))
      rcases hsep with rfl | ⟨c, rfl, hc⟩
      · have hshape : ([] ++ ((dh :: dt) ++ rest2)) ++ r
            = dh :: (dt ++ (rest2 ++ r)) := by simp
        rw [hshape]
        simp only [cardGroups]
        rw [if_neg (by rw [hdh]; simp)]
        have htd : takeDigits 4 (dh :: (dt ++ (rest2 ++ r))) = some (rest2 ++ r) := by
          rw [← hdlen]
          have : (dh :: dt : List Char).length = (dh :: dt).length := rfl
          rw [show (dh :: (dt ++ (rest2 ++ r))) = (dh :: dt) ++ (rest2 ++ r) by simp]
          exact takeDigits_complete (dh :: dt) _ hdig
        rw [htd]
        exact ih rest2 r hrec
      · have hshape : ([c] ++ ((dh :: dt) ++ rest2)) ++ r
            = c :: ((dh :: dt) ++ (rest2 ++ r)) := by simp
        rw [hshape]
        simp only [cardGroups]
        rw [if_pos hc]
        have htd : takeDigits 4 ((dh :: dt) ++ (rest2 ++ r)) = some (rest2 ++ r) := by
          rw [← hdlen]
          exact takeDigits_complete (dh :: dt) _ hdig
        rw [htd]
        exact ih rest2 r hrec

end CognitoFlow

namespace CognitoFlow

/-- Unpacking a successful card match. -/
theorem matchCardAt_sound {prev : Option Char} {cs : List Char} {n : Nat}
    (h : matchCardAt prev cs = some n) :
    boundaryB prev cs.head? = true ∧
    ∃ ds pre r4, cs = ds ++ (pre ++ r4) ∧
      ds.length = 4 ∧ (∀ c ∈ ds, c.isDigit = true) ∧ cardShape 3 pre ∧
      n = 4 + pre.length ∧
      boundaryB (cs.get? (n - 1)) (cs.get? n) = true := by
  rw [matchCardAt] at h
  split at h
  · cases h
  · rename_i hguard
    have hb : boundaryB prev cs.head? = true := by
      cases hB : boundaryB prev cs.head?
      · rw [hB] at hguard
        simp at hguard
      · rfl
    split at h
    · cases h
    · rename_i r1 heq1
      split at h
      · cases h
      · rename_i r4 heq2
        simp only [] at h
        split at h
        · rename_i hbd
          have hn : n = cs.length - r4.length := (Option.some.inj h).symm
          rcases takeDigits_sound 4 cs r1 heq1 with ⟨ds, hcs, hdslen, hdsdig⟩
          rcases cardGroups_sound 3 r1 r4 heq2 with ⟨pre, hr1, hshape⟩
          have hcs' : cs = ds ++ (pre ++ r4) := by
            rw [hcs, hr1]
          have hlen : cs.length = 4 + pre.length + r4.length := by
            rw [hcs']
            simp only [List.length_append]
            omega
          have hn' : n = 4 + pre.length := by omega
          refine ⟨hb, ds, pre, r4, hcs', hdslen, hdsdig, hshape, hn', ?_⟩
          rw [← hn] at hbd
          exact hbd
        · cases h

/-- Building a card match from its components. -/
theorem matchCardAt_complete {prev : Option Char} {cs : List Char}
    {ds pre r4 : List Char}
    (hcs : cs = ds ++ (pre ++ r4))
    (hb : boundaryB prev cs.head? = true)
    (hdslen : ds.length = 4) (hdsdig : ∀ c ∈ ds, c.isDigit = true)
    (hshape : cardShape 3 pre)
    (hbd : boundaryB (cs.get? (4 + pre.length - 1)) (cs.get? (4 + pre.length)) = true) :
    matchCardAt prev cs = some (4 + pre.length) := by
  subst hcs
  rw [matchCardAt, if_neg (by rw [hb]; simp)]
  have ht1 : takeDigits 4 (ds ++ (pre ++ r4)) = some (pre ++ r4) := by
    rw [← hdslen]
    exact takeDigits_complete ds _ hdsdig
  have ht2 : cardGroups 3 (pre ++ r4) = some r4 := cardGroups_complete 3 pre r4 hshape
  simp only [ht1, ht2]
  have hlen : (ds ++ (pre ++ r4)).length - r4.length = 4 + pre.length := by
    simp only [List.length_append]
    omega
  rw [hlen, if_pos hbd]

/-- The card pattern fails unless the text starts with a digit. -/
theorem matchCardAt_head_ne {c : Char} (hc : c.isDigit = false) (p : Option Char)
    (u : List Char) : matchCardAt p (c :: u) = none := by
  have ht : takeDigits 4 (c :: u) = none := by
    rw [show (4 : Nat) = 3 + 1 from rfl, takeDigits, hc]
    rfl
  rw [matchCardAt]
  split
  · rfl
  · rw [ht]

/-- The card pattern fails on the empty text. -/
theorem matchCardAt_nil (p : Option Char) : matchCardAt p [] = none := by
  rw [matchCardAt]
  split
  · rfl
  · rfl

end CognitoFlow

namespace CognitoFlow

/-- The card matcher satisfies the bundle. -/
theorem matchCardAt_ok : MatcherOk matchCardAt := by
  constructor
  · -- not_zero
    intro p cs h
    rcases matchCardAt_sound h with ⟨_, _, pre, _, _, _, _, _, hn, _⟩
    omega
  · -- le_length
    intro p cs n h
    rcases matchCardAt_sound h with ⟨_, ds, pre, r4, hcs, hdslen, _, _, hn, _⟩
    have := congrArg List.length hcs
    simp only [List.length_append] at this
    omega
  · -- empty_none
    intro p
    exact matchCardAt_nil p
  · -- no_bound_none
    intro p cs h
    cases cs with
    | nil => exact matchCardAt_nil p
    | cons c u =>
      rw [matchCardAt, if_pos (by rw [h]; rfl)]
  · -- ctx_congr
    intro p q cs h
    simp only [matchCardAt, boundaryB_congr p q cs.head? h]
  · -- bracketL
    intro p u
    exact matchCardAt_head_ne (by decide) p u
  · -- bracketR
    intro p u
    exact matchCardAt_head_ne (by decide) p u
  · -- alpha_tail
    intro p ls u hne hall
    cases ls with
    | nil => exact absurd rfl hne
    | cons d t =>
      rw [List.cons_append]
      exact matchCardAt_head_ne (alpha_not_digit (hall d (by simp))) p _
  · -- trail_bound
    intro p cs n h
    rcases matchCardAt_sound h with ⟨_, _, _, _, _, _, _, _, _, hbd⟩
    exact hbd
  · -- transfer
    intro p A w z g hb hsome
    rcases Option.isSome_iff_exists.mp hsome with ⟨n, hmatch⟩
    rcases matchCardAt_sound hmatch with
      ⟨hhead, ds, pre, r4, hcs, hdslen, hdsdig, hshape, hn, hbd⟩
    have hpre : A ++ '[' :: w = (ds ++ pre) ++ r4 := by
      rw [hcs]
      simp
    have havoid : ∀ c ∈ ds ++ pre, c ≠ '[' := by
      intro c hc heq
      subst heq
      have hLdig : ('[' : Char).isDigit = false := by decide
      rcases List.mem_append.mp hc with h | h
      · rw [hdsdig _ h] at hLdig
        cases hLdig
      · rcases cardShape_chars 3 pre hshape _ h with h' | h'
        · rw [h'] at hLdig
          cases hLdig
        · have : (isSpaceChar '[' || '[' == '-') = false := by decide
          rw [this] at h'
          cases h'
    have hpleA : (ds ++ pre).length ≤ A.length := pre_length_le hpre havoid
    have hprelen : (ds ++ pre).length = n := by
      simp only [List.length_append]
      omega
    rcases append_eq_extract hpre hpleA with ⟨mid, hA, hpost⟩
    have hA_ne : A ≠ [] := by
      intro h0
      rw [h0] at hpleA
      simp only [List.length_nil, Nat.le_zero, List.length_append, hdslen] at hpleA
      omega
    have hcs' : A ++ g :: z = ds ++ (pre ++ (mid ++ g :: z)) := by
      rw [hA]
      simp
    have hbd' : boundaryB ((A ++ g :: z).get? (n - 1)) ((A ++ g :: z).get? n) = true := by
      refine trail_boundary_transfer ?_ ?_ hb hbd
      · omega
      · omega
    have hcomp := matchCardAt_complete hcs'
      (head_boundary_transfer hA_ne p hhead)
      hdslen hdsdig hshape (by rw [← hn]; exact hbd')
    rw [hcomp]
    rfl

end CognitoFlow

namespace CognitoFlow

/-- Unpacking a successful top-level-part search. -/
theorem tldTry_sound :
    ∀ (k : Nat) (rest : List Char) (n : Nat), tldTry rest k = some n →
      2 ≤ n ∧ n ≤ k ∧ boundaryB (rest.get? (n - 1)) (rest.get? n) = true := by
  intro k
  induction k using Nat.strong_induction_on with
  | _ k ih =>
    match k with
    | 0 => intro rest n h; cases h
    | 1 => intro rest n h; cases h
    | m + 2 =>
      intro rest n h
      rw [tldTry] at h
      split at h
      · rename_i hbd
        cases h
        refine ⟨by omega, by omega, ?_⟩
        have hidx : m + 2 - 1 = m + 1 := by omega
        rw [hidx]
        exact hbd
      · have := ih (m + 1) (by omega) rest n h
        exact ⟨this.1, by omega, this.2.2⟩

/-- A viable candidate makes the top-level-part search succeed. -/
theorem tldTry_isSome_of :
    ∀ (k : Nat) (rest : List Char) (j : Nat), 2 ≤ j → j ≤ k →
      boundaryB (rest.get? (j - 1)) (rest.get? j) = true →
      (tldTry rest k).isSome = true := by
  intro k
  induction k using Nat.strong_induction_on with
  | _ k ih =>
    match k with
    | 0 => intro rest j h2 hk _; omega
    | 1 => intro rest j h2 hk _; omega
    | m + 2 =>
      intro rest j h2 hk hbd
      rw [tldTry]
      split
      · rfl
      · rename_i hno
        rcases Nat.lt_or_ge j (m + 2) with hlt | hge
        · exact ih (m + 1) (by omega) rest j h2 (by omega) hbd
        · have hj : j = m + 2 := by omega
          subst hj
          have hidx : m + 2 - 1 = m + 1 := by omega
          rw [hidx] at hbd
          exact absurd hbd hno

/-- Unpacking a successful domain search. -/
theorem domainTry_sound :
    ∀ (k : Nat) (cs2 : List Char) (r : Nat), domainTry cs2 k = some r →
      ∃ j tl, j + 1 ≤ k ∧ cs2.get? (j + 1) = some '.' ∧
        tldTry (cs2.drop (j + 2)) (runLen isTldChar (cs2.drop (j + 2))) = some tl ∧
        r = (j + 1) + 1 + tl := by
  intro k
  induction k with
  | zero => intro cs2 r h; cases h
  | succ d ih =>
    intro cs2 r h
    rw [domainTry] at h
    split at h
    · rename_i r' heq
      cases h
      split at heq
      · rename_i hdot
        rcases Option.map_eq_some'.mp heq with ⟨tl, htl, hval⟩
        refine ⟨d, tl, by omega, by simpa using hdot, htl, hval.symm⟩
      · cases heq
    · rcases ih cs2 r h with ⟨j, tl, hj, hdot, htl, hr⟩
      exact ⟨j, tl, by omega, hdot, htl, hr⟩

/-- A viable dot position makes the domain search succeed. -/
theorem domainTry_isSome_of :
    ∀ (k : Nat) (cs2 : List Char) (j : Nat), j + 1 ≤ k →
      cs2.get? (j + 1) = some '.' →
      (tldTry (cs2.drop (j + 2)) (runLen isTldChar (cs2.drop (j + 2)))).isSome = true →
      (domainTry cs2 k).isSome = true := by
  intro k
  induction k with
  | zero => intro cs2 j hj _ _; omega
  | succ d ih =>
    intro cs2 j hj hdot htld
    rw [domainTry]
    cases hif : (if cs2.get? (d + 1) == some '.' then
        (tldTry (cs2.drop (d + 2)) (runLen isTldChar (cs2.drop (d + 2)))).map
          (fun tl => (d + 1) + 1 + tl)
      else none) with
    | some r' => simp [hif]
    | none =>
      simp only [hif]
      rcases Nat.lt_or_ge (j + 1) (d + 1) with hlt | hge
      · exact ih cs2 j (by omega) hdot htld
      · have hjd : j = d := by omega
        subst hjd
        rw [if_pos (by rw [hdot]; decide)] at hif
        rcases Option.isSome_iff_exists.mp htld with ⟨tl, htl⟩
        rw [htl] at hif
        cases hif

end CognitoFlow

namespace CognitoFlow

/-- Letters belong to the local-part class. -/
theorem alpha_isLocal {c : Char} (h : c.isAlpha = true) : isLocalChar c = true := by
  simp [isLocalChar, Char.isAlphanum, h]

/-- Unpacking a successful email match. -/
theorem matchEmailAt_sound {prev : Option Char} {cs : List Char} {n : Nat}
    (h : matchEmailAt prev cs = some n) :
    boundaryB prev cs.head? = true ∧
    1 ≤ runLen isLocalChar cs ∧
    ∃ cs2 j tl, cs.drop (runLen isLocalChar cs) = '@' :: cs2 ∧
      j + 1 ≤ runLen isDomainChar cs2 ∧ cs2.get? (j + 1) = some '.' ∧
      tldTry (cs2.drop (j + 2)) (runLen isTldChar (cs2.drop (j + 2))) = some tl ∧
      n = runLen isLocalChar cs + 1 + ((j + 1) + 1 + tl) := by
  rw [matchEmailAt] at h
  split at h
  · cases h
  · rename_i hguard
    have hb : boundaryB prev cs.head? = true := by
      cases hB : boundaryB prev cs.head?
      · rw [hB] at hguard
        simp at hguard
      · rfl
    simp only [] at h
    split at h
    · cases h
    · rename_i hl0
      have hl1 : 1 ≤ runLen isLocalChar cs := by
        cases hL : runLen isLocalChar cs
        · rw [hL] at hl0
          simp at hl0
        · omega
      split at h
      · rename_i cs2 heq
        rcases Option.map_eq_some'.mp h with ⟨t, hdom, hn⟩
        rcases domainTry_sound _ cs2 t hdom with ⟨j, tl, hj, hdot, htld, ht⟩
        exact ⟨hb, hl1, cs2, j, tl, heq, hj, hdot, htld, by omega⟩
      · cases h

/-- Building an email match from its components. -/
theorem matchEmailAt_isSome_of {prev : Option Char} {cs cs2 : List Char}
    {j : Nat}
    (hb : boundaryB prev cs.head? = true)
    (hl1 : 1 ≤ runLen isLocalChar cs)
    (heq : cs.drop (runLen isLocalChar cs) = '@' :: cs2)
    (hdom : j + 1 ≤ runLen isDomainChar cs2)
    (hdot : cs2.get? (j + 1) = some '.')
    (htld : (tldTry (cs2.drop (j + 2)) (runLen isTldChar (cs2.drop (j + 2)))).isSome
      = true) :
    (matchEmailAt prev cs).isSome = true := by
  rw [matchEmailAt, if_neg (by rw [hb]; simp)]
  simp only []
  rw [if_neg (by cases hL : runLen isLocalChar cs <;> simp_all), heq]
  have hds : (domainTry cs2 (runLen isDomainChar cs2)).isSome = true :=
    domainTry_isSome_of _ cs2 j hdom hdot htld
  rcases Option.isSome_iff_exists.mp hds with ⟨t, ht⟩
  show (Option.map (fun t => runLen isLocalChar cs + 1 + t)
    (domainTry cs2 (runLen isDomainChar cs2))).isSome = true
  rw [ht]
  rfl

/-- The email pattern fails on a text whose head is not a local-part
character. -/
theorem matchEmailAt_head_ne {c : Char} (hc : isLocalChar c = false)
    (p : Option Char) (u : List Char) : matchEmailAt p (c :: u) = none := by
  rw [matchEmailAt]
  split
  · rfl
  · simp [runLen_cons, hc]

/-- The email pattern fails on the empty text. -/
theorem matchEmailAt_nil (p : Option Char) : matchEmailAt p [] = none := by
  rw [matchEmailAt]
  split
  · rfl
  · rfl

end CognitoFlow

namespace CognitoFlow

/-- A position with a known element splits a drop as a cons. -/
theorem get?_drop_cons {cs : List Char} {i : Nat} {a : Char}
    (h : cs.get? i = some a) : cs.drop i = a :: cs.drop (i + 1) := by
  rw [List.get?_eq_getElem?] at h
  rcases List.getElem?_eq_some.mp h with ⟨hlt, hval⟩
  rw [List.drop_eq_getElem_cons hlt, hval]

/-- Derived facts of a successful email match, with all indices converted
to positions of the whole text. -/
theorem email_facts {prev : Option Char} {cs : List Char} {n : Nat}
    (h : matchEmailAt prev cs = some n) :
    ∃ cs2 j tl,
      boundaryB prev cs.head? = true ∧
      1 ≤ runLen isLocalChar cs ∧
      cs.drop (runLen isLocalChar cs) = '@' :: cs2 ∧
      (∀ i, cs2.get? i = cs.get? (runLen isLocalChar cs + 1 + i)) ∧
      j + 1 ≤ runLen isDomainChar cs2 ∧
      cs2.get? (j + 1) = some '.' ∧
      tldTry (cs2.drop (j + 2)) (runLen isTldChar (cs2.drop (j + 2))) = some tl ∧
      2 ≤ tl ∧ tl ≤ runLen isTldChar (cs2.drop (j + 2)) ∧
      boundaryB (cs.get? (n - 1)) (cs.get? n) = true ∧
      n = runLen isLocalChar cs + 1 + ((j + 1) + 1 + tl) ∧
      cs.length = runLen isLocalChar cs + 1 + cs2.length ∧
      j + 1 < cs2.length ∧
      n ≤ cs.length := by
  rcases matchEmailAt_sound h with ⟨hb, hl1, cs2, j, tl, heq, hdom, hdot, htld, hn⟩
  have hdrop1 : cs.drop (runLen isLocalChar cs + 1) = cs2 := by
    have h1 : (cs.drop (runLen isLocalChar cs)).drop 1
        = cs.drop (runLen isLocalChar cs + 1) := by
      rw [List.drop_drop]
    rw [← h1, heq]
    rfl
  have hget2 : ∀ i, cs2.get? i = cs.get? (runLen isLocalChar cs + 1 + i) := by
    intro i
    rw [← hdrop1, get?_drop]
  have hcs2len : cs.length = runLen isLocalChar cs + 1 + cs2.length := by
    have h1 := congrArg List.length heq
    simp only [List.length_drop, List.length_cons] at h1
    have h2 := runLen_le_length isLocalChar cs
    omega
  have hjlt : j + 1 < cs2.length := by
    have hd := hdot
    rw [List.get?_eq_getElem?] at hd
    exact (List.getElem?_eq_some.mp hd).1
  rcases tldTry_sound _ _ _ htld with ⟨h2tl, htlle, hbdtl⟩
  have hnle : n ≤ cs.length := by
    have h3 : tl ≤ (cs2.drop (j + 2)).length := le_trans htlle (runLen_le_length _ _)
    simp only [List.length_drop] at h3
    omega
  have hbdn : boundaryB (cs.get? (n - 1)) (cs.get? n) = true := by
    rw [get?_drop, get?_drop, hget2, hget2] at hbdtl
    have e1 : runLen isLocalChar cs + 1 + (j + 2 + (tl - 1)) = n - 1 := by omega
    have e2 : runLen isLocalChar cs + 1 + (j + 2 + tl) = n := by omega
    rw [e1, e2] at hbdtl
    exact hbdtl
  exact ⟨cs2, j, tl, hb, hl1, heq, hget2, hdom, hdot, htld, h2tl, htlle, hbdn, hn,
    hcs2len, hjlt, hnle⟩

end CognitoFlow

namespace CognitoFlow

/-- Transfer of an email match across a change of the text after the
shared prefix, given the boundary hypothesis at the junction. -/
theorem matchEmailAt_transfer (p : Option Char) (A w z : List Char) (g : Char)
    (hb : boundaryB (lastCtx p A) (some g) = true)
    (hsome : (matchEmailAt p (A ++ '[' :: w)).isSome = true) :
    (matchEmailAt p (A ++ g :: z)).isSome = true := by
  rcases Option.isSome_iff_exists.mp hsome with ⟨n, hmatch⟩
  rcases email_facts hmatch with ⟨cs2, j, tl, hhead, hl1, heq, hget2, hdom, hdot,
    htld, h2tl, htlle, hbdn, hn, hcslen, hjlt, hnle0⟩
  obtain ⟨l, hL⟩ : ∃ l, runLen isLocalChar (A ++ '[' :: w) = l := ⟨_, rfl⟩
  rw [hL] at hl1 heq hget2 hn hcslen
  have hat : (A ++ '[' :: w).get? l = some '@' := by
    have h1 : ((A ++ '[' :: w).drop l).head? = some '@' := by
      rw [heq]
      rfl
    rw [head?_drop_eq_get?] at h1
    exact h1
  have hchar : ∀ d, d < n → ∃ c, (A ++ '[' :: w).get? d = some c ∧ c ≠ '[' := by
    intro d hd
    rcases Nat.lt_or_ge d l with h1 | h1
    · rcases runLen_sat isLocalChar (A ++ '[' :: w) d (by rw [hL]; exact h1) with
        ⟨c, hc, hpc⟩
      refine ⟨c, hc, ?_⟩
      intro hE
      subst hE
      rw [show isLocalChar '[' = false from by decide] at hpc
      cases hpc
    · rcases Nat.lt_or_ge d (l + 1) with h2 | h2
      · have hdl : d = l := by omega
        subst hdl
        exact ⟨'@', hat, by decide⟩
      · rcases Nat.lt_or_ge d (l + 1 + (j + 1)) with h3 | h3
        · have hi : d - (l + 1) < j + 1 := by omega
          rcases runLen_sat isDomainChar cs2 (d - (l + 1))
            (lt_of_lt_of_le hi hdom) with ⟨c, hc, hpc⟩
          rw [hget2] at hc
          have e : l + 1 + (d - (l + 1)) = d := by omega
          rw [e] at hc
          refine ⟨c, hc, ?_⟩
          intro hE
          subst hE
          rw [show isDomainChar '[' = false from by decide] at hpc
          cases hpc
        · rcases Nat.lt_or_ge d (l + 1 + (j + 2)) with h4 | h4
          · have hdd : d = l + 1 + (j + 1) := by omega
            have hc := hdot
            rw [hget2] at hc
            rw [← hdd] at hc
            exact ⟨'.', hc, by decide⟩
          · have hi : d - (l + 1 + (j + 2)) < tl := by omega
            rcases runLen_sat isTldChar (cs2.drop (j + 2)) (d - (l + 1 + (j + 2)))
              (lt_of_lt_of_le hi htlle) with ⟨c, hc, hpc⟩
            rw [get?_drop, hget2] at hc
            have e : l + 1 + (j + 2 + (d - (l + 1 + (j + 2)))) = d := by omega
            rw [e] at hc
            refine ⟨c, hc, ?_⟩
            intro hE
            subst hE
            rw [show isTldChar '[' = false from by decide] at hpc
            cases hpc
  have hnle : n ≤ A.length := by
    by_contra h'
    push_neg at h'
    rcases hchar A.length h' with ⟨c, hc, hcne⟩
    have hbr : (A ++ '[' :: w).get? A.length = some '[' := by
      rw [get?_append_ge A ('[' :: w) A.length (Nat.le_refl _)]
      simp
    rw [hbr] at hc
    exact hcne (Option.some.inj hc).symm
  have hlA : l < A.length := by omega
  have hA_ne : A ≠ [] := by
    intro h0
    rw [h0] at hlA
    simp at hlA
  have hat' : (A ++ g :: z).get? l = some '@' := by
    rw [← get?_agree A ('[' :: w) (g :: z) l hlA]
    exact hat
  have hl' : runLen isLocalChar (A ++ g :: z) = l := by
    refine runLen_eq_of _ _ _ ?_ ?_
    · intro i hi
      rcases runLen_sat isLocalChar (A ++ '[' :: w) i (by rw [hL]; exact hi) with
        ⟨c, hc, hpc⟩
      rw [get?_agree A ('[' :: w) (g :: z) i (by omega)] at hc
      exact ⟨c, hc, hpc⟩
    · right
      exact ⟨'@', hat', by decide⟩
  have heq' : (A ++ g :: z).drop l = '@' :: (A ++ g :: z).drop (l + 1) :=
    get?_drop_cons hat'
  have hget2' : ∀ i, ((A ++ g :: z).drop (l + 1)).get? i
      = (A ++ g :: z).get? (l + 1 + i) := by
    intro i
    rw [get?_drop]
  have hdom' : j + 1 ≤ runLen isDomainChar ((A ++ g :: z).drop (l + 1)) := by
    refine runLen_ge_of _ _ _ ?_
    intro i hi
    rcases runLen_sat isDomainChar cs2 i (lt_of_lt_of_le hi hdom) with ⟨c, hc, hpc⟩
    rw [hget2] at hc
    rw [get?_agree A ('[' :: w) (g :: z) (l + 1 + i) (by omega)] at hc
    refine ⟨c, ?_, hpc⟩
    rw [hget2']
    exact hc
  have hdot' : ((A ++ g :: z).drop (l + 1)).get? (j + 1) = some '.' := by
    have hc := hdot
    rw [hget2] at hc
    rw [get?_agree A ('[' :: w) (g :: z) (l + 1 + (j + 1)) (by omega)] at hc
    rw [hget2']
    exact hc
  have hBD := @trail_boundary_transfer p A w z g n (by omega) hnle hb hbdn
  have htld' : (tldTry (((A ++ g :: z).drop (l + 1)).drop (j + 2))
      (runLen isTldChar (((A ++ g :: z).drop (l + 1)).drop (j + 2)))).isSome
      = true := by
    refine tldTry_isSome_of _ _ tl h2tl ?_ ?_
    · refine runLen_ge_of _ _ _ ?_
      intro i hi
      rcases runLen_sat isTldChar (cs2.drop (j + 2)) i (lt_of_lt_of_le hi htlle) with
        ⟨c, hc, hpc⟩
      rw [get?_drop, hget2] at hc
      rw [get?_agree A ('[' :: w) (g :: z) (l + 1 + (j + 2 + i)) (by omega)] at hc
      refine ⟨c, ?_, hpc⟩
      rw [get?_drop, hget2']
      exact hc
    · rw [get?_drop, get?_drop, get?_drop, get?_drop]
      have e1 : l + 1 + (j + 2 + (tl - 1)) = n - 1 := by omega
      have e2 : l + 1 + (j + 2 + tl) = n := by omega
      rw [e1, e2]
      exact hBD
  refine matchEmailAt_isSome_of (head_boundary_transfer hA_ne p hhead) ?_ ?_
    hdom' hdot' htld'
  · rw [hl']
    omega
  · rw [hl']
    exact heq'

end CognitoFlow

namespace CognitoFlow

/-- The email matcher satisfies the bundle. -/
theorem matchEmailAt_ok : MatcherOk matchEmailAt := by
  constructor
  · -- not_zero
    intro p cs h
    rcases email_facts h with ⟨cs2, j, tl, _, hl1, _, _, _, _, _, _, _, _, hn, _, _, _⟩
    omega
  · -- le_length
    intro p cs n h
    rcases email_facts h with ⟨cs2, j, tl, _, _, _, _, _, _, _, _, _, _, _, _, _, hnle⟩
    exact hnle
  · -- empty_none
    intro p
    exact matchEmailAt_nil p
  · -- no_bound_none
    intro p cs h
    cases cs with
    | nil => exact matchEmailAt_nil p
    | cons c u =>
      rw [matchEmailAt, if_pos (by rw [h]; rfl)]
  · -- ctx_congr
    intro p q cs h
    simp only [matchEmailAt, boundaryB_congr p q cs.head? h]
  · -- bracketL
    intro p u
    exact matchEmailAt_head_ne (by decide) p u
  · -- bracketR
    intro p u
    exact matchEmailAt_head_ne (by decide) p u
  · -- alpha_tail
    intro p ls u hne hall
    cases hm : matchEmailAt p (ls ++ ']' :: u) with
    | none => rfl
    | some n =>
      exfalso
      rcases email_facts hm with ⟨cs2, j, tl, _, _, heq, _, _, _, _, _, _, _, _, _, _, _⟩
      have hrun : runLen isLocalChar (ls ++ ']' :: u) = ls.length := by
        refine runLen_append_sat _ _ _ _ ?_ (by decide)
        intro c hc
        exact alpha_isLocal (hall c hc)
      rw [hrun, List.drop_left] at heq
      rw [List.cons.injEq] at heq
      have : (']' : Char) ≠ '@' := by decide
      exact this heq.1
  · -- trail_bound
    intro p cs n h
    rcases email_facts h with ⟨cs2, j, tl, _, _, _, _, _, _, _, _, _, hbdn, _, _, _, _⟩
    exact hbdn
  · -- transfer
    intro p A w z g hb hsome
    exact matchEmailAt_transfer p A w z g hb hsome

end CognitoFlow

namespace CognitoFlow

/-- Freeness of a substitution output at the string level: the output of
substituting pattern Y is free of X matches when X is Y itself or the
input was already X-free. -/
theorem pySub_free {mX mY : Option Char → List Char → Option Nat}
    (hX : MatcherOk mX) (hY : MatcherOk mY)
    (inner : List Char) (hinner : ∀ c ∈ inner, c.isAlpha = true)
    (tok : String) (htok : tok.toList = '[' :: inner ++ [']'])
    (s : String) (hdisj : mX = mY ∨ pySearch mX s = false) :
    pySearch mX (pySub mY tok s) = false := by
  show searchFrom mX none (pySub mY tok s).toList = false
  rw [pySub]
  show searchFrom mX none
    (subFromAux mY tok.toList s.toList.length none s.toList) = false
  rw [htok]
  exact sub_free hX hY inner hinner s.toList.length none s.toList
    (Nat.le_refl _) hdisj

/-- A substitution leaves a match-free string unchanged. -/
theorem pySub_id {m : Option Char → List Char → Option Nat} (tok : String)
    {s : String} (h : pySearch m s = false) : pySub m tok s = s := by
  rw [pySub]
  rw [subFromAux_of_free m tok.toList s.toList.length none s.toList
    (Nat.le_refl _) h]
  obtain ⟨d⟩ := s
  rfl

/-- The four placeholder substitutions are idempotent at the string
level: a second pass changes nothing. -/
theorem anonymizeString_idem (s : String) :
    anonymizeString (anonymizeString s) = anonymizeString s := by
  have hE := matchEmailAt_ok
  have hP := matchPhoneAt_ok
  have hS := matchSSNAt_ok
  have hC := matchCardAt_ok
  have hIE : ∀ c ∈ (['E', 'M', 'A', 'I', 'L'] : List Char), c.isAlpha = true := by
    decide
  have hIP : ∀ c ∈ (['P', 'H', 'O', 'N', 'E'] : List Char), c.isAlpha = true := by
    decide
  have hIS : ∀ c ∈ (['S', 'S', 'N'] : List Char), c.isAlpha = true := by decide
  have hIC : ∀ c ∈ (['C', 'A', 'R', 'D'] : List Char), c.isAlpha = true := by decide
  have hTE : ("[EMAIL]" : String).toList = '[' :: ['E', 'M', 'A', 'I', 'L'] ++ [']'] := rfl
  have hTP : ("[PHONE]" : String).toList = '[' :: ['P', 'H', 'O', 'N', 'E'] ++ [']'] := rfl
  have hTS : ("[SSN]" : String).toList = '[' :: ['S', 'S', 'N'] ++ [']'] := rfl
  have hTC : ("[CARD]" : String).toList = '[' :: ['C', 'A', 'R', 'D'] ++ [']'] := rfl
  have h1E : pySearch matchEmailAt (pySub matchEmailAt "[EMAIL]" s) = false :=
    pySub_free hE hE _ hIE _ hTE s (Or.inl rfl)
  have h2E : pySearch matchEmailAt
      (pySub matchPhoneAt "[PHONE]" (pySub matchEmailAt "[EMAIL]" s)) = false :=
    pySub_free hE hP _ hIP _ hTP _ (Or.inr h1E)
  have h2P : pySearch matchPhoneAt
      (pySub matchPhoneAt "[PHONE]" (pySub matchEmailAt "[EMAIL]" s)) = false :=
    pySub_free hP hP _ hIP _ hTP _ (Or.inl rfl)
  have h3E : pySearch matchEmailAt (pySub matchSSNAt "[SSN]"
      (pySub matchPhoneAt "[PHONE]" (pySub matchEmailAt "[EMAIL]" s))) = false :=
    pySub_free hE hS _ hIS _ hTS _ (Or.inr h2E)
  have h3P : pySearch matchPhoneAt (pySub matchSSNAt "[SSN]"
      (pySub matchPhoneAt "[PHONE]" (pySub matchEmailAt "[EMAIL]" s))) = false :=
    pySub_free hP hS _ hIS _ hTS _ (Or.inr h2P)
  have h3S : pySearch matchSSNAt (pySub matchSSNAt "[SSN]"
      (pySub matchPhoneAt "[PHONE]" (pySub matchEmailAt "[EMAIL]" s))) = false :=
    pySub_free hS hS _ hIS _ hTS _ (Or.inl rfl)
  have h4E : pySearch matchEmailAt (anonymizeString s) = false :=
    pySub_free hE hC _ hIC _ hTC _ (Or.inr h3E)
  have h4P : pySearch matchPhoneAt (anonymizeString s) = false :=
    pySub_free hP hC _ hIC _ hTC _ (Or.inr h3P)
  have h4S : pySearch matchSSNAt (anonymizeString s) = false :=
    pySub_free hS hC _ hIC _ hTC _ (Or.inr h3S)
  have h4C : pySearch matchCardAt (anonymizeString s) = false :=
    pySub_free hC hC _ hIC _ hTC _ (Or.inl rfl)
  show anonymizeString (anonymizeString s) = anonymizeString s
  rw [show anonymizeString (anonymizeString s)
      = pySub matchCardAt "[CARD]" (pySub matchSSNAt "[SSN]"
        (pySub matchPhoneAt "[PHONE]" (pySub matchEmailAt "[EMAIL]"
          (anonymizeString s)))) from rfl]
  rw [pySub_id "[EMAIL]" h4E, pySub_id "[PHONE]" h4P, pySub_id "[SSN]" h4S,
    pySub_id "[CARD]" h4C]

/-- Idempotence at the value level. -/
theorem anonymizeValue_idem (v : Value) :
    anonymizeValue (anonymizeValue v) = anonymizeValue v := by
  cases v with
  | vStr s => simp only [anonymizeValue, anonymizeString_idem]
  | vInt n => rfl
  | vBool b => rfl
  | vList vs => rfl
  | vDict kvs => rfl
  | vNone => rfl

/-- Idempotence of the anonymizing substitution at the record level. -/
theorem anonymizeRecord_idem (data : Record) :
    anonymizeRecord (anonymizeRecord data) = anonymizeRecord data := by
  induction data with
  | nil => rfl
  | cons kv rest ih =>
    show (kv.1, anonymizeValue (anonymizeValue kv.2)) :: anonymizeRecord (anonymizeRecord rest)
      = (kv.1, anonymizeValue kv.2) :: anonymizeRecord rest
    rw [anonymizeValue_idem, ih]

end CognitoFlow


namespace CognitoFlow

/-- C8: the anonymize substitution is idempotent — for every record,
applying the placeholder substitution to a record that is already the
output of the substitution yields the same record, with no
double-substitution artifact. -/
theorem anonymize_substitution_idempotent (data : Record) :
    anonymizeRecord (anonymizeRecord data) = anonymizeRecord data :=
  anonymizeRecord_idem data

end CognitoFlow


namespace CognitoFlow

/-!
### Python value operations used by the condition evaluator

Iteration, membership, subscription, equality, ordering and summation
over `Value`, with `Except String` modelling the Python exceptions the
source can raise inside a rule (caught per rule by `enforce_policy`).
-/

/-- Numeric view of a value: Python bools are ints. -/
def toNum? : Value → Option Int
  | .vInt n => some n
  | .vBool b => some (if b then 1 else 0)
  | _ => none

mutual

/-- Python `==`.  Numbers compare across int and bool; strings, lists and
dicts compare structurally; mixed types are unequal.  (Python dict
equality ignores insertion order; the model compares items in order,
which agrees whenever the two dicts list their keys in the same order.) -/
def pyEq : Value → Value → Bool
  | .vInt a, .vInt b => a == b
  | .vInt a, .vBool b => a == (if b then 1 else 0)
  | .vBool a, .vInt b => (if a then (1 : Int) else 0) == b
  | .vBool a, .vBool b => a == b
  | .vStr a, .vStr b => a == b
  | .vNone, .vNone => true
  | .vList as, .vList bs => pyEqList as bs
  | .vDict as, .vDict bs => pyEqDict as bs
  | _, _ => false

/-- Elementwise equality of Python lists. -/
def pyEqList : List Value → List Value → Bool
  | [], [] => true
  | a :: as, b :: bs => pyEq a b && pyEqList as bs
  | _, _ => false

/-- Itemwise equality of Python dicts (see `pyEq`). -/
def pyEqDict : List (String × Value) → List (String × Value) → Bool
  | [], [] => true
  | (k1, v1) :: as, (k2, v2) :: bs => k1 == k2 && pyEq v1 v2 && pyEqDict as bs
  | _, _ => false

end

/-- Exception text of an unsupported comparison. -/
def cmpErrS (op l r : String) : String :=
  "\x27" ++ op ++ "\x27 not supported between instances of \x27" ++ l ++
  "\x27 and \x27" ++ r ++ "\x27"

mutual

/-- Python `a >= b`: numbers (bools count as ints) and strings compare,
lists compare lexicographically, anything else raises `TypeError`. -/
def pyGE : Value → Value → Except String Bool
  | a, b =>
    match toNum? a, toNum? b with
    | some x, some y => .ok (decide (y ≤ x))
    | _, _ =>
      match a, b with
      | .vStr x, .vStr y => .ok (decide (y ≤ x))
      | .vList xs, .vList ys => pyGEList xs ys
      | _, _ => .error (cmpErrS ">=" (pyTypeName a) (pyTypeName b))

/-- Lexicographic `>=` on Python lists: skip equal prefixes, decide at the
first differing pair, compare lengths when one list is a prefix. -/
def pyGEList : List Value → List Value → Except String Bool
  | [], ys => .ok ys.isEmpty
  | _ :: _, [] => .ok true
  | x :: xs, y :: ys => if pyEq x y then pyGEList xs ys else pyGE x y

end

/-- Python iteration (`for x in v`): lists yield their elements, strings
yield single-character strings, dicts yield their keys. -/
def pyIter : Value → Except String (List Value)
  | .vList vs => .ok vs
  | .vStr s => .ok (s.toList.map (fun c => Value.vStr (String.singleton c)))
  | .vDict kvs => .ok (kvs.map (fun kv => Value.vStr kv.1))
  | v => .error ("\x27" ++ pyTypeName v ++ "\x27 object is not iterable")

/-- Python `needle in container`. -/
def pyContains (container needle : Value) : Except String Bool :=
  match container with
  | .vList vs => .ok (vs.any (fun v => pyEq needle v))
  | .vDict kvs =>
    match needle with
    | .vStr s => .ok (containsKey kvs s)
    | .vList _ => .error "unhashable type: \x27list\x27"
    | .vDict _ => .error "unhashable type: \x27dict\x27"
    | _ => .ok false
  | .vStr s =>
    match needle with
    | .vStr sub => .ok (hasSubstr s sub)
    | v => .error ("must be str, not " ++ pyTypeName v)
  | v => .error ("argument of type \x27" ++ pyTypeName v ++ "\x27 is not iterable")

/-- Python `container[k]` for a string key `k`. -/
def pyIndex (container : Value) (k : String) : Except String Value :=
  match container with
  | .vDict kvs =>
    match alookup kvs k with
    | some v => .ok v
    | none => .error (pyReprStr k)
  | .vStr _ => .error "string indices must be integers"
  | .vList _ => .error "list indices must be integers or slices, not str"
  | v => .error ("\x27" ++ pyTypeName v ++ "\x27 object is not subscriptable")

/-- Python `sum` over a list of numbers, keeping the individual numbers:
the first non-numeric element raises the `TypeError` of `int + <type>`. -/
def toNums : List Value → Except String (List Int)
  | [] => .ok []
  | v :: vs =>
    match toNum? v with
    | some n => (toNums vs).map (fun ns => n :: ns)
    | none =>
      .error ("unsupported operand type(s) for +: \x27int\x27 and \x27" ++
              pyTypeName v ++ "\x27")

end CognitoFlow

namespace CognitoFlow

/-!
### Condition evaluator
-/

/-- Model of `_validate_consent`: when the `consent_required` option is
truthy the check passes only for a present and truthy
`consent_timestamp`; otherwise it passes.  The `consent_expiry` option is
read in the source but never affects the result. -/
def validate_consent (data : Record) (conditions : Record) : Bool :=
  match alookup conditions "consent_required" with
  | some v =>
    if pyTruthy v then
      match alookup data "consent_timestamp" with
      | some ts => pyTruthy ts
      | none => false
    else true
  | none => true

/-- Population variance of a list of integers, in exact rationals (the
source computes it in floats). -/
def listVariance (ns : List Int) : Rat :=
  let n : Rat := (ns.length : Rat)
  let mean := (ns.map (fun x => (x : Rat))).sum / n
  (ns.map (fun x => ((x : Rat) - mean) ^ 2)).sum / n

/-- Python `variance > bias_threshold` against the raw condition value
(the float default `0.1` when absent). -/
def biasGT (variance : Rat) : Option Value → Except String Bool
  | none => .ok (decide ((1 : Rat) / 10 < variance))
  | some (.vInt n) => .ok (decide ((n : Rat) < variance))
  | some (.vBool b) => .ok (decide (((if b then 1 else 0) : Rat) < variance))
  | some v => .error (cmpErrS ">" "float" (pyTypeName v))

/-- One protected attribute of the bias loop: membership in the record
(unhashable attributes raise), then the variance test on list values of
length above one. -/
def biasAttr (data : Record) (thr : Option Value) (attr : Value) :
    Except String Bool :=
  match attr with
  | .vList _ => .error "unhashable type: \x27list\x27"
  | .vDict _ => .error "unhashable type: \x27dict\x27"
  | .vStr s =>
    if containsKey data s then
      match alookup data s with
      | some (.vList vs) =>
        if vs.length > 1 then
          (toNums vs).bind (fun ns => biasGT (listVariance ns) thr)
        else .ok false
      | _ => .ok false
    else .ok false
  | _ => .ok false

/-- The bias loop with its early return. -/
def biasLoop (data : Record) (thr : Option Value) : List Value → Except String Bool
  | [] => .ok false
  | attr :: rest =>
    (biasAttr data thr attr).bind (fun hit =>
      if hit then .ok true else biasLoop data thr rest)

/-- Model of `_detect_bias`. -/
def detect_bias (data : Record) (conditions : Record) : Except String Bool :=
  let pa := (alookup conditions "protected_attributes").getD (Value.vList [])
  let thr := alookup conditions "bias_threshold"
  (pyIter pa).bind (fun attrs => biasLoop data thr attrs)

/-- The loop of `_check_financial_thresholds` over every record field
whose key contains "amount" (case-insensitive) and whose value is
numeric (`isinstance(value, (int, float))`; bools are ints in Python). -/
def amountLoop (thresholds : Value) : List (String × Value) → Except String Bool
  | [] => .ok false
  | (k, v) :: rest =>
    if hasSubstr (strLower k) "amount" && (toNum? v).isSome then do
      let hasWire ← pyContains thresholds (Value.vStr "wire")
      let wireHit ←
        if hasWire then do
          let t ← pyIndex thresholds "wire"
          pyGE v t
        else pure false
      if wireHit then pure true
      else do
        let hasCash ← pyContains thresholds (Value.vStr "cash")
        let cashHit ←
          if hasCash then do
            let t ← pyIndex thresholds "cash"
            pyGE v t
          else pure false
        if cashHit then pure true else amountLoop thresholds rest
    else amountLoop thresholds rest

/-- Model of `_check_financial_thresholds`: the direct cash check, the
direct wire check, then the generic amount loop. -/
def check_financial_thresholds (data : Record) (conditions : Record) :
    Except String Bool := do
  let thresholds := (alookup conditions "threshold_amounts").getD (Value.vDict [])
  let cashHit ←
    match alookup data "cash_amount" with
    | some amt => do
      let has ← pyContains thresholds (Value.vStr "cash")
      if has then do
        let t ← pyIndex thresholds "cash"
        pyGE amt t
      else pure false
    | none => pure false
  if cashHit then pure true
  else do
    let wireHit ←
      match alookup data "wire_amount" with
      | some amt => do
        let has ← pyContains thresholds (Value.vStr "wire")
        if has then do
          let t ← pyIndex thresholds "wire"
          pyGE amt t
        else pure false
      | none => pure false
    if wireHit then pure true else amountLoop thresholds data

/-- The generator `any(dt in detected_types for dt in dts)` where
`detected_types` is a Python list of strings. -/
def anyDetected (dts : Value) (detected : List String) : Except String Bool :=
  (pyIter dts).map (fun items =>
    items.any (fun dt => detected.any (fun t => pyEq dt (Value.vStr t))))

/-- Model of `_evaluate_conditions`: dispatch on key presence, in source
order.  The `user_context` argument is accepted and never used, as in the
source.  The final `medical_record` test reads
`conditions.get("data_types", [])`, which at that point is always the
default empty list (a conditions dict containing `data_types` returned in
the first branch), so the PHI branch is unreachable. -/
def evaluate_conditions (conditions : Record) (data : Record)
    (_user_context : Option Record) : Except String Bool :=
  if containsKey conditions "data_types" then
    anyDetected ((alookup conditions "data_types").getD Value.vNone) (detect_pii data)
  else if containsKey conditions "protected_attributes" then
    detect_bias data conditions
  else if containsKey conditions "consent_required" then
    .ok (validate_consent data conditions)
  else if containsKey conditions "threshold_amounts" then
    check_financial_thresholds data conditions
  else
    match pyContains ((alookup conditions "data_types").getD (Value.vList []))
            (Value.vStr "medical_record") with
    | .ok true => .ok (detect_phi data)
    | .ok false => .ok true
    | .error e => .error e

end CognitoFlow

namespace CognitoFlow

/-!
### Action executor
-/

/-- The closed action enumeration of the source. -/
inductive PolicyAction where
  | allow | deny | flag | anonymize | escalate | require
  | encrypt | log | notify | validate | restrict | delete
  deriving Repr, DecidableEq

/-- String tag of an action (`PolicyAction.value` in the source). -/
def PolicyAction.value : PolicyAction → String
  | .allow => "allow"
  | .deny => "deny"
  | .flag => "flag"
  | .anonymize => "anonymize"
  | .escalate => "escalate"
  | .require => "require"
  | .encrypt => "encrypt"
  | .log => "log"
  | .notify => "notify"
  | .validate => "validate"
  | .restrict => "restrict"
  | .delete => "delete"

/-- The closed enforcement-mode enumeration of the source. -/
inductive EnforcementMode where
  | real_time | pre_processing | post_processing | scheduled | pre_decision
  deriving Repr, DecidableEq

/-- Result dictionary of an action helper: `success`, `message` and the
optional `metadata` (read back with `.get("metadata", {})`, so an absent
key means the empty dict). -/
structure ActionResult where
  success : Bool
  message : String
  metadata : Record := []
  deriving Repr

/-- Model of `_anonymize_data`: the substituted copy is computed from the
record (the original is untouched) and then dropped; the returned
metadata lists every key of the record under `original_keys`. -/
def anonymize_data (data : Record) (_conditions : Record) : ActionResult :=
  let _anonymized := anonymizeRecord data
  { success := true
    message := "Data anonymized successfully"
    metadata := [("original_keys", Value.vList (data.map (fun kv => Value.vStr kv.1))),
                 ("anonymized", Value.vBool true)] }

/-- Model of `_encrypt_data`: reporting only, no transformation. -/
def encrypt_data (_data : Record) (conditions : Record) : ActionResult :=
  let std := (alookup conditions "encryption_standard").getD (Value.vStr "AES_256")
  { success := true
    message := "Data encrypted using " ++ pyStr std
    metadata := [("encrypted", Value.vBool true), ("algorithm", std)] }

/-- Model of `_flag_data`. -/
def flag_data (_data : Record) (_conditions : Record) : ActionResult :=
  { success := true
    message := "Data flagged for manual review"
    metadata := [("flagged", Value.vBool true), ("review_required", Value.vBool true)] }

/-- Model of `_escalate_decision`. -/
def escalate_decision (_data : Record) (_conditions : Record) : ActionResult :=
  { success := true
    message := "Decision escalated to human oversight"
    metadata := [("escalated", Value.vBool true), ("requires_approval", Value.vBool true)] }

/-- Model of `_send_notification`. -/
def send_notification (_data : Record) (conditions : Record) : ActionResult :=
  let nt := (alookup conditions "notification_timeframe").getD (Value.vStr "immediate")
  { success := true
    message := "Notification sent (" ++ pyStr nt ++ ")"
    metadata := [("notification_sent", Value.vBool true), ("type", nt)] }

/-- Model of `_log_activity`. -/
def log_activity (_data : Record) (_conditions : Record) : ActionResult :=
  { success := true
    message := "Activity logged for audit"
    metadata := [("logged", Value.vBool true), ("audit_trail", Value.vBool true)] }

/-- Model of `_restrict_access`. -/
def restrict_access (_data : Record) (_conditions : Record) : ActionResult :=
  { success := true
    message := "Access restricted based on policy"
    metadata := [("access_restricted", Value.vBool true),
                 ("minimum_necessary", Value.vBool true)] }

/-- Model of `_delete_data`. -/
def delete_data (_data : Record) (_conditions : Record) : ActionResult :=
  { success := true
    message := "Data deleted according to retention policy"
    metadata := [("deleted", Value.vBool true),
                 ("retention_policy_applied", Value.vBool true)] }

/-- The required-fields loop of `_validate_data`, collecting the missing
fields in order (membership of an unhashable field raises). -/
def requiredFieldsLoop (data : Record) : List Value → Except String (Bool × List String)
  | [] => .ok (true, [])
  | f :: rest => do
    let present ←
      match f with
      | .vList _ => Except.error "unhashable type: \x27list\x27"
      | .vDict _ => Except.error "unhashable type: \x27dict\x27"
      | .vStr s => pure (containsKey data s)
      | _ => pure false
    let (okRest, msgs) ← requiredFieldsLoop data rest
    if present then pure (okRest, msgs)
    else pure (false, ("Missing required field: " ++ pyStr f) :: msgs)

/-- Model of `_validate_data`. -/
def validate_data (data : Record) (conditions : Record) :
    Except String ActionResult := do
  let (passed, msgs) ←
    if containsKey conditions "required_fields" then do
      let fields ← pyIter ((alookup conditions "required_fields").getD Value.vNone)
      requiredFieldsLoop data fields
    else pure (true, [])
  pure { success := passed
         message := "Data validation completed"
         metadata := [("validation_passed", Value.vBool passed),
                      ("messages", Value.vList (msgs.map Value.vStr))] }

/-- Model of `_execute_action`: one branch per action; the final else
branch of the source is reached only by `require`. -/
def execute_action (action : PolicyAction) (data : Record) (conditions : Record) :
    Except String ActionResult :=
  match action with
  | .anonymize => .ok (anonymize_data data conditions)
  | .encrypt => .ok (encrypt_data data conditions)
  | .flag => .ok (flag_data data conditions)
  | .escalate => .ok (escalate_decision data conditions)
  | .notify => .ok (send_notification data conditions)
  | .log => .ok (log_activity data conditions)
  | .restrict => .ok (restrict_access data conditions)
  | .validate => validate_data data conditions
  | .delete => .ok (delete_data data conditions)
  | .deny => .ok { success := true, message := "Access denied by policy" }
  | .allow => .ok { success := true, message := "Access allowed by policy" }
  | .require => .ok { success := true, message := "Action require executed" }

end CognitoFlow

namespace CognitoFlow

/-!
### Rule and policy engine, audit log, reporting
-/

/-- A policy rule. -/
structure PolicyRule where
  rule_id : String
  type : String
  action : PolicyAction
  conditions : Record
  enforcement : EnforcementMode
  deriving Repr

/-- A policy. -/
structure Policy where
  policy_id : String
  name : String
  version : String
  description : String
  rules : List PolicyRule
  compliance_frameworks : List String
  audit_required : Bool
  created_by : String
  created_date : String
  deriving Repr

/-- One enforcement result per rule (the wall-clock timestamp field is
not modelled). -/
structure EnforcementResult where
  policy_id : String
  rule_id : String
  action_taken : PolicyAction
  success : Bool
  message : String
  metadata : Record
  deriving Repr

/-- One audit-log entry: the persisted projection of a result, with the
action flattened to its string tag. -/
structure AuditEvent where
  policy_id : String
  rule_id : String
  action_taken : String
  success : Bool
  message : String
  metadata : Record
  deriving Repr

/-- The audit dictionary built by `_log_audit_event` from a result. -/
def auditOf (policy_id : String) (r : EnforcementResult) : AuditEvent :=
  { policy_id := policy_id
    rule_id := r.rule_id
    action_taken := r.action_taken.value
    success := r.success
    message := r.message
    metadata := r.metadata }

/-- Engine state: the in-memory policy store and the content of the audit
file (`none` models a file that does not exist yet). -/
structure EngineState where
  policies : List (String × Policy)
  audit_store : Option (List AuditEvent)
  deriving Repr

/-- Model of `_log_audit_event`: read the audit file (a missing file reads
as the empty list), append the event, write the file back.  Its internal
exception handler means it never raises. -/
def log_audit_event (store : Option (List AuditEvent)) (ev : AuditEvent) :
    Option (List AuditEvent) :=
  some (store.getD [] ++ [ev])

/-- Model of `_enforce_rule`: evaluate the conditions, then either run
the action (tagging the result with the rule's action) or produce the
default allow result; exceptions propagate to the caller. -/
def enforce_rule (rule : PolicyRule) (data : Record) (user_context : Option Record) :
    Except String EnforcementResult :=
  match evaluate_conditions rule.conditions data user_context with
  | .error e => .error e
  | .ok cond =>
    if cond then
      match execute_action rule.action data rule.conditions with
      | .error e => .error e
      | .ok ar =>
        .ok { policy_id := ""
              rule_id := rule.rule_id
              action_taken := rule.action
              success := ar.success
              message := ar.message
              metadata := ar.metadata }
    else
      .ok { policy_id := ""
            rule_id := rule.rule_id
            action_taken := .allow
            success := true
            message := "Rule conditions not met, allowing by default"
            metadata := [] }

/-- One iteration of the enforcement loop: the result appended for the
rule and whether the per-rule try block succeeded (only a result produced
without an exception is logged to the audit trail). -/
def ruleOutcome (policy_id : String) (data : Record) (user_context : Option Record)
    (rule : PolicyRule) : EnforcementResult × Bool :=
  match enforce_rule rule data user_context with
  | .ok r0 => ({ r0 with policy_id := policy_id }, true)
  | .error e =>
    ({ policy_id := policy_id
       rule_id := rule.rule_id
       action_taken := .deny
       success := false
       message := "Rule enforcement failed: " ++ e
       metadata := [] }, false)

/-- Model of `enforce_policy`.  The source loop appends one result per
rule and, when the policy requires auditing, logs each result produced
without an exception as it goes; every iteration is independent of the
accumulator, so the results are a map over the rules and the audited
events a filtered map, applied to the audit file one append at a time. -/
def enforce_policy (st : EngineState) (policy_id : String) (data : Record)
    (user_context : Option Record) :
    Except String (List EnforcementResult × EngineState) :=
  match alookup st.policies policy_id with
  | none => .error ("Policy " ++ policy_id ++ " not found")
  | some policy =>
    let results := policy.rules.map (fun r => (ruleOutcome policy_id data user_context r).1)
    let audits :=
      if policy.audit_required then
        policy.rules.filterMap (fun r =>
          let out := ruleOutcome policy_id data user_context r
          if out.2 then some (auditOf policy_id out.1) else none)
      else []
    .ok (results, { st with audit_store := audits.foldl log_audit_event st.audit_store })

/-- Exception text of reading the missing audit file. -/
def fnfMsg : String :=
  "[Errno 2] No such file or directory: \x27compliance/audit_log.json\x27"

/-- The per-policy status dictionary (`last_enforcement` is the timestamp
of the last matching event; with timestamps unmodelled it is represented
by the event itself). -/
structure PolicyStatus where
  policy_id : String
  policy_name : String
  total_enforcements : Nat
  successful_enforcements : Nat
  failed_enforcements : Nat
  last_event : Option AuditEvent
  compliance_frameworks : List String
  deriving Repr

/-- Return value of `get_policy_status`: the status dictionary, or the
error dictionary `{policy_id, policy_name, error}` built by its internal
exception handler. -/
inductive StatusResult where
  | report (s : PolicyStatus)
  | errorReport (policy_id policy_name error : String)
  deriving Repr

/-- Model of `get_policy_status`: an unknown policy raises; a missing
audit file is caught internally and reported as an error dictionary. -/
def get_policy_status (st : EngineState) (policy_id : String) :
    Except String StatusResult :=
  match alookup st.policies policy_id with
  | none => .error ("Policy " ++ policy_id ++ " not found")
  | some policy =>
    match st.audit_store with
    | none => .ok (.errorReport policy_id policy.name fnfMsg)
    | some audit_log =>
      let evs := audit_log.filter (fun e => e.policy_id == policy_id)
      .ok (.report
        { policy_id := policy_id
          policy_name := policy.name
          total_enforcements := evs.length
          successful_enforcements := (evs.filter (fun e => e.success)).length
          failed_enforcements := (evs.filter (fun e => !e.success)).length
          last_event := evs.getLast?
          compliance_frameworks := policy.compliance_frameworks })

/-- Per-policy counters of the dashboard. -/
structure PolicyStat where
  total : Nat
  success : Nat
  failed : Nat
  deriving Repr

/-- Insertion-ordered grouping of events by policy (a Python dict built
in event order). -/
def bumpPolicyStat (stats : List (String × PolicyStat)) (pid : String) (ok : Bool) :
    List (String × PolicyStat) :=
  match stats with
  | [] => [(pid, { total := 1
                   success := if ok then 1 else 0
                   failed := if ok then 0 else 1 })]
  | (k, s) :: rest =>
    if k = pid then
      (k, { total := s.total + 1
            success := s.success + (if ok then 1 else 0)
            failed := s.failed + (if ok then 0 else 1) }) :: rest
    else (k, s) :: bumpPolicyStat rest pid ok

/-- Insertion-ordered grouping of events by action tag. -/
def bumpActionStat (stats : List (String × Nat)) (a : String) : List (String × Nat) :=
  match stats with
  | [] => [(a, 1)]
  | (k, n) :: rest => if k = a then (k, n + 1) :: rest else (k, n) :: bumpActionStat rest a

/-- The `summary` block of the dashboard. -/
structure DashboardSummary where
  total_policies : Nat
  total_enforcements : Nat
  successful_enforcements : Nat
  failed_enforcements : Nat
  compliance_rate : Rat
  deriving Repr

/-- The full dashboard dictionary. -/
structure DashboardData where
  summary : DashboardSummary
  policy_statistics : List (String × PolicyStat)
  action_statistics : List (String × Nat)
  recent_events : List AuditEvent
  deriving Repr

/-- Model of `get_compliance_dashboard`: reading a missing audit file
raises `FileNotFoundError`, which the handler turns into the error
dictionary (the error branch here).  The float compliance rate is
modelled in exact rationals. -/
def get_compliance_dashboard (st : EngineState) : Except String DashboardData :=
  match st.audit_store with
  | none => .error fnfMsg
  | some audit_log =>
    let total_events := audit_log.length
    let successful_events := (audit_log.filter (fun e => e.success)).length
    .ok
      { summary :=
          { total_policies := st.policies.length
            total_enforcements := total_events
            successful_enforcements := successful_events
            failed_enforcements := total_events - successful_events
            compliance_rate :=
              if total_events > 0 then
                (successful_events : Rat) / (total_events : Rat) * 100
              else 0 }
        policy_statistics :=
          audit_log.foldl (fun acc e => bumpPolicyStat acc e.policy_id e.success) []
        action_statistics :=
          audit_log.foldl (fun acc e => bumpActionStat acc e.action_taken) []
        recent_events :=
          if audit_log.isEmpty then [] else audit_log.drop (audit_log.length - 10) }

end CognitoFlow

namespace CognitoFlow

/-!
### Concrete instances

Closed policies, records and states used to exercise the theorems below
on concrete inputs.
-/

/-- The anti-money-laundering rule of the financial-compliance scenario. -/
def amlRule : PolicyRule :=
  { rule_id := "anti_money_laundering"
    «type» := "financial"
    action := .flag
    conditions := [("threshold_amounts", Value.vDict [("wire", Value.vInt 10000)])]
    enforcement := .real_time }

/-- The financial-compliance policy of the end-to-end scenario. -/
def finPolicy : Policy :=
  { policy_id := "financial_compliance_001"
    name := "Financial Services Compliance Policy"
    version := "1.0"
    description := ""
    rules := [amlRule]
    compliance_frameworks := ["AML"]
    audit_required := true
    created_by := "compliance_team"
    created_date := "2024-01-15" }

/-- State holding only the financial-compliance policy, with an existing
empty audit file. -/
def stFin : EngineState :=
  { policies := [("financial_compliance_001", finPolicy)]
    audit_store := some [] }

/-- A high wire-transfer record. -/
def wireData : Record := [("wire_amount", Value.vInt 15000)]

/-- A bias rule whose protected attribute holds non-numeric values in the
record below, so its evaluation raises a `TypeError` inside the engine. -/
def biasRule : PolicyRule :=
  { rule_id := "r1"
    «type» := "bias_prevention"
    action := .flag
    conditions := [("protected_attributes", Value.vList [Value.vStr "gender"])]
    enforcement := .real_time }

/-- An audited single-rule policy around `biasRule`. -/
def biasPolicy : Policy :=
  { policy_id := "p1"
    name := "bp"
    version := "1.0"
    description := ""
    rules := [biasRule]
    compliance_frameworks := []
    audit_required := true
    created_by := "t"
    created_date := "d" }

/-- State holding `biasPolicy` with an existing empty audit file. -/
def stBias : EngineState :=
  { policies := [("p1", biasPolicy)], audit_store := some [] }

/-- A record whose `gender` field is a list of strings: summing it raises
`TypeError`, so the bias rule errors during evaluation. -/
def biasData : Record := [("gender", Value.vList [Value.vStr "a", Value.vStr "b"])]

/-- The synthetic failure result the engine substitutes for the bias rule
on `biasData`. -/
def biasFailResult : EnforcementResult :=
  { policy_id := "p1"
    rule_id := "r1"
    action_taken := .deny
    success := false
    message := "Rule enforcement failed: unsupported operand type(s) for +: \x27int\x27 and \x27str\x27"
    metadata := [] }

/-- State holding `biasPolicy` whose audit file does not exist yet. -/
def stMissing : EngineState :=
  { policies := [("p1", biasPolicy)], audit_store := none }

/-- A state with no policies and an existing empty audit file. -/
def stEmpty : EngineState := { policies := [], audit_store := some [] }

/-- The dashboard over an empty audit file and no policies. -/
def dashEmpty : DashboardData :=
  { summary :=
      { total_policies := 0
        total_enforcements := 0
        successful_enforcements := 0
        failed_enforcements := 0
        compliance_rate := 0 }
    policy_statistics := []
    action_statistics := []
    recent_events := [] }

/-- A two-field record: one plain field and one field holding an email
address. -/
def mixedData : Record :=
  [("a", Value.vStr "plain text"), ("b", Value.vStr "e@f.gh")]

/-- A sample audit event. -/
def sampleEvent : AuditEvent :=
  { policy_id := "p1"
    rule_id := "r1"
    action_taken := "flag"
    success := true
    message := "Data flagged for manual review"
    metadata := [] }

end CognitoFlow

namespace CognitoFlow

/-!
### Shared lemmas
-/

/-- A successful lookup implies key membership. -/
theorem containsKey_of_alookup {α : Type} {r : List (String × α)} {k : String} {v : α}
    (h : alookup r k = some v) : containsKey r k = true := by
  induction r with
  | nil => simp [alookup] at h
  | cons p rest ih =>
    obtain ⟨k0, v0⟩ := p
    by_cases hk : k0 = k
    · simp [containsKey, hk]
    · rw [alookup] at h
      simp only [hk, if_false] at h
      simp [containsKey, hk, ih h]

/-- Appending a list of events to an existing audit file, one append at a
time, concatenates them. -/
theorem foldl_log_audit (evs : List AuditEvent) :
    ∀ l : List AuditEvent, evs.foldl log_audit_event (some l) = some (l ++ evs) := by
  induction evs with
  | nil => intro l; simp
  | cons e rest ih =>
    intro l
    simp only [List.foldl_cons, log_audit_event, Option.getD_some]
    rw [ih (l ++ [e])]
    simp

/-- Filtering a zip of two maps over the same list collapses to one
filtered map. -/
theorem zip_map_filterMap {α β γ : Type} (l : List α) (f : α → β) (g : α → Bool)
    (h : β → γ) :
    ((l.map f).zip (l.map g)).filterMap
      (fun pr => if pr.2 then some (h pr.1) else none) =
    l.filterMap (fun r => if g r then some (h (f r)) else none) := by
  induction l with
  | nil => rfl
  | cons a rest ih =>
    simp only [List.map_cons, List.zip_cons_cons, List.filterMap_cons]
    cases hg : g a <;> simp [hg, ih]

/-- The PII detector only ever reports the four fixed kind tags. -/
theorem detect_pii_mem {d : Record} {t : String} (ht : t ∈ detect_pii d) :
    t = "email" ∨ t = "phone" ∨ t = "ssn" ∨ t = "credit_card" := by
  simp only [detect_pii, List.mem_append] at ht
  split_ifs at ht <;> simp_all <;> tauto

/-- A rule result produced without an exception carries the rule's id. -/
theorem enforce_rule_rule_id {rule : PolicyRule} {data : Record} {ctx : Option Record}
    {r0 : EnforcementResult} (h : enforce_rule rule data ctx = .ok r0) :
    r0.rule_id = rule.rule_id := by
  unfold enforce_rule at h
  cases he : evaluate_conditions rule.conditions data ctx with
  | error e => rw [he] at h; exact absurd h (by simp)
  | ok cond =>
    rw [he] at h
    cases cond with
    | false =>
      simp only [if_false, Bool.false_eq_true] at h
      cases h
      rfl
    | true =>
      simp only [if_true] at h
      cases hx : execute_action rule.action data rule.conditions with
      | error e => rw [hx] at h; exact absurd h (by simp)
      | ok ar =>
        rw [hx] at h
        cases h
        rfl

/-- A result appended by the enforcement loop carries its rule's id. -/
theorem ruleOutcome_rule_id (pid : String) (data : Record) (ctx : Option Record)
    (rule : PolicyRule) : (ruleOutcome pid data ctx rule).1.rule_id = rule.rule_id := by
  unfold ruleOutcome
  cases he : enforce_rule rule data ctx with
  | error e => rfl
  | ok r0 => simpa using enforce_rule_rule_id he

/-- When a rule's conditions evaluate false, the loop appends the default
allow result. -/
theorem ruleOutcome_allow (pid : String) (data : Record) (ctx : Option Record)
    (rule : PolicyRule)
    (h : evaluate_conditions rule.conditions data ctx = .ok false) :
    (ruleOutcome pid data ctx rule).1.action_taken = .allow ∧
    (ruleOutcome pid data ctx rule).1.success = true := by
  unfold ruleOutcome enforce_rule
  rw [h]
  simp

/-- The substituted copy agrees with the original record pointwise, each
value passed through the substitution. -/
theorem alookup_anonymizeRecord (data : Record) (k : String) :
    alookup (anonymizeRecord data) k = (alookup data k).map anonymizeValue := by
  induction data with
  | nil => rfl
  | cons p rest ih =>
    obtain ⟨k0, v0⟩ := p
    by_cases hk : k0 = k
    · simp [anonymizeRecord, alookup, hk]
    · simp only [anonymizeRecord, List.map_cons, alookup, hk, if_false] at ih ⊢
      exact ih

/-- The substitution preserves the key sequence of a record. -/
theorem anonymizeRecord_keys (data : Record) :
    (anonymizeRecord data).map Prod.fst = data.map Prod.fst := by
  induction data with
  | nil => rfl
  | cons p rest ih =>
    simp only [anonymizeRecord, List.map_cons] at ih ⊢
    rw [ih]

end CognitoFlow

namespace CognitoFlow

/-!
### Claims about consent validation (C1, C10)
-/

/-- C1 (counterexample): a rule whose conditions are exactly
`consent_required: true`, evaluated against a record with no
`consent_timestamp`, yields false — the action does not fire — while the
claim says the rule fires exactly when consent is missing. -/
theorem consent_missing_rule_does_not_fire :
    evaluate_conditions [("consent_required", Value.vBool true)] [] none =
      .ok false ∧
    alookup ([] : Record) "consent_timestamp" = none :=
  ⟨rfl, rfl⟩

/-- C1 (amended): for a rule whose conditions contain `consent_required`
with a truthy value and contain neither `data_types` nor
`protected_attributes` (which take dispatch priority), the condition
evaluator returns true if and only if the record holds a truthy
`consent_timestamp` entry: the rule fires exactly when consent is
present, not when it is missing. -/
theorem consent_rule_fires_iff_consent_present (c d : Record) (ctx : Option Record)
    (v : Value)
    (h1 : containsKey c "data_types" = false)
    (h2 : containsKey c "protected_attributes" = false)
    (h3 : alookup c "consent_required" = some v)
    (h4 : pyTruthy v = true) :
    evaluate_conditions c d ctx =
      .ok (match alookup d "consent_timestamp" with
           | some ts => pyTruthy ts
           | none => false) := by
  have hk : containsKey c "consent_required" = true := containsKey_of_alookup h3
  simp only [evaluate_conditions, h1, h2, hk, Bool.false_eq_true, if_false, if_true,
    validate_consent, h3, h4]

/-- Witness for the amended C1 at a concrete rule and record. -/
theorem consent_rule_fires_iff_consent_present_witness :
    evaluate_conditions [("consent_required", Value.vBool true)]
      [("consent_timestamp", Value.vStr "2024-01-15T10:00:00Z")] none =
      .ok (match alookup [("consent_timestamp", Value.vStr "2024-01-15T10:00:00Z")]
                 "consent_timestamp" with
           | some ts => pyTruthy ts
           | none => false) :=
  consent_rule_fires_iff_consent_present _ _ none (Value.vBool true) rfl rfl rfl rfl

/-- C10 (counterexample): the claim quantifies over every rule whose
conditions hold a falsy `consent_required`, but when such conditions also
hold `data_types` the dispatch takes the PII branch, which can return
false; so the evaluator does not return true for every such rule. -/
theorem falsy_consent_shadowed_by_data_types :
    evaluate_conditions
      [("data_types", Value.vList []), ("consent_required", Value.vBool false)]
      [] none = .ok false :=
  rfl

/-- C10 (amended): for a rule whose conditions contain `consent_required`
with a falsy value and contain neither `data_types` nor
`protected_attributes`, the condition evaluator returns true for every
record, regardless of `consent_timestamp`. -/
theorem falsy_consent_rule_always_fires (c d : Record) (ctx : Option Record) (v : Value)
    (h1 : containsKey c "data_types" = false)
    (h2 : containsKey c "protected_attributes" = false)
    (h3 : alookup c "consent_required" = some v)
    (h4 : pyTruthy v = false) :
    evaluate_conditions c d ctx = .ok true := by
  have hk : containsKey c "consent_required" = true := containsKey_of_alookup h3
  simp [evaluate_conditions, h1, h2, hk, validate_consent, h3, h4]

/-- Witness for the amended C10 at a concrete rule and record that does
hold a consent timestamp. -/
theorem falsy_consent_rule_always_fires_witness :
    evaluate_conditions [("consent_required", Value.vBool false)]
      [("consent_timestamp", Value.vStr "2024-01-15T10:00:00Z")] none = .ok true :=
  falsy_consent_rule_always_fires _ _ none (Value.vBool false) rfl rfl rfl rfl

end CognitoFlow

namespace CognitoFlow

/-!
### Claim about the protected-health-information scan (C3)
-/

/-- C3 (counterexample): a rule whose `data_types` is exactly
`["medical_record"]`, evaluated against a record whose flattened text
contains the indicator "diagnosis", yields false even though the PHI
keyword scan on the same record reports true — the evaluator never runs
the PHI scan from the `data_types` key. -/
theorem medical_record_rule_ignores_phi :
    evaluate_conditions [("data_types", Value.vList [Value.vStr "medical_record"])]
      [("note", Value.vStr "patient diagnosis")] none = .ok false ∧
    detect_phi [("note", Value.vStr "patient diagnosis")] = true :=
  ⟨rfl, rfl⟩

/-- C3 (amended): when a rule's conditions bind `data_types` to exactly
`["medical_record"]`, the evaluator takes the PII branch (the PHI branch
is unreachable behind the `data_types` early return), and since the PII
detector only ever reports email, phone, ssn and credit_card, the rule
never fires: the evaluator returns false for every record. -/
theorem medical_record_only_rule_never_fires (c d : Record) (ctx : Option Record)
    (h : alookup c "data_types" = some (Value.vList [Value.vStr "medical_record"])) :
    evaluate_conditions c d ctx = .ok false := by
  have hk : containsKey c "data_types" = true := containsKey_of_alookup h
  simp only [evaluate_conditions, hk, if_true, h, Option.getD_some, anyDetected,
    pyIter, Except.map, List.any_cons, List.any_nil, Bool.or_false]
  congr 1
  rw [List.any_eq_false]
  intro t ht
  rcases detect_pii_mem ht with h1 | h1 | h1 | h1 <;> simp [h1, pyEq]

/-- Witness for the amended C3 at a concrete rule and record. -/
theorem medical_record_only_rule_never_fires_witness :
    evaluate_conditions [("data_types", Value.vList [Value.vStr "medical_record"])]
      [("patient_id", Value.vStr "PAT_12345")] none = .ok false :=
  medical_record_only_rule_never_fires _ _ none rfl

end CognitoFlow

namespace CognitoFlow

/-!
### Claims about unknown policies and the missing audit store (C5, C6)
-/

/-- C5: enforcing an unknown policy id fails with the policy-not-found
error before producing any result, and (since no state is returned) the
audit log is untouched by the call. -/
theorem unknown_policy_raises (st : EngineState) (pid : String) (data : Record)
    (ctx : Option Record) (h : alookup st.policies pid = none) :
    enforce_policy st pid data ctx = .error ("Policy " ++ pid ++ " not found") := by
  unfold enforce_policy
  rw [h]

/-- Witness for C5: the empty policy store knows no policy. -/
theorem unknown_policy_raises_witness :
    enforce_policy stEmpty "data_privacy_001" [] none =
      .error ("Policy " ++ "data_privacy_001" ++ " not found") :=
  unknown_policy_raises stEmpty "data_privacy_001" [] none rfl

/-- C6 (counterexample): with one policy registered and no audit file,
the compliance dashboard returns the error payload built from the
`FileNotFoundError`, not the zero-event statistics the claim promises. -/
theorem dashboard_errors_on_missing_store :
    get_compliance_dashboard stMissing = .error fnfMsg ∧
    get_policy_status stMissing "p1" = .ok (.errorReport "p1" "bp" fnfMsg) :=
  ⟨rfl, rfl⟩

/-- C6 (amended): when the audit store does not exist, the append path of
the audit log does read it as an empty sequence (an append creates the
store holding exactly the new event), but the compliance dashboard and
the per-policy status both return an error payload instead of zero-event
statistics. -/
theorem missing_store_read_behavior (st : EngineState) (h : st.audit_store = none) :
    get_compliance_dashboard st = .error fnfMsg ∧
    (∀ pid p, alookup st.policies pid = some p →
      get_policy_status st pid = .ok (.errorReport pid p.name fnfMsg)) ∧
    (∀ ev, log_audit_event st.audit_store ev = some [ev]) := by
  refine ⟨?_, ?_, ?_⟩
  · unfold get_compliance_dashboard
    rw [h]
  · intro pid p hp
    unfold get_policy_status
    rw [hp, h]
  · intro ev
    rw [h]
    rfl

/-- Witness for the amended C6 at the concrete missing-store state. -/
theorem missing_store_read_behavior_witness :
    get_compliance_dashboard stMissing = .error fnfMsg ∧
    get_policy_status stMissing "p1" = .ok (.errorReport "p1" biasPolicy.name fnfMsg) ∧
    log_audit_event stMissing.audit_store sampleEvent = some [sampleEvent] := by
  obtain ⟨h1, h2, h3⟩ := missing_store_read_behavior stMissing rfl
  exact ⟨h1, h2 "p1" biasPolicy rfl, h3 sampleEvent⟩

end CognitoFlow

namespace CognitoFlow

/-!
### Claims about enforcement results and the audit trail (C4, C2)
-/

/-- C4: enforcing a stored policy returns exactly one result per rule, in
rule order — the result at each index carries the id of the rule at that
index — and a rule whose conditions evaluate false contributes the
explicit default allow result with success true, never an omission. -/
theorem enforce_returns_one_result_per_rule (st : EngineState) (pid : String)
    (data : Record) (ctx : Option Record) (p : Policy)
    (h : alookup st.policies pid = some p) :
    ∃ rs st', enforce_policy st pid data ctx = .ok (rs, st') ∧
      rs.length = p.rules.length ∧
      (∀ i rule, p.rules.get? i = some rule →
        ∃ res, rs.get? i = some res ∧ res.rule_id = rule.rule_id ∧
          (evaluate_conditions rule.conditions data ctx = .ok false →
            res.action_taken = .allow ∧ res.success = true)) := by
  have hE : enforce_policy st pid data ctx =
      .ok (p.rules.map (fun r => (ruleOutcome pid data ctx r).1),
        { st with audit_store :=
            (if p.audit_required = true then
               p.rules.filterMap (fun r =>
                 let out := ruleOutcome pid data ctx r
                 if out.2 = true then some (auditOf pid out.1) else none)
             else []).foldl log_audit_event st.audit_store }) := by
    unfold enforce_policy
    rw [h]
  refine ⟨_, _, hE, ?_, ?_⟩
  · simp
  · intro i rule hrule
    refine ⟨(ruleOutcome pid data ctx rule).1, ?_,
      ruleOutcome_rule_id pid data ctx rule, ?_⟩
    · rw [List.get?_eq_getElem?] at hrule ⊢
      rw [List.getElem?_map, hrule]
      rfl
    · intro hfalse
      exact ruleOutcome_allow pid data ctx rule hfalse

/-- Witness for C4 at the concrete financial-compliance state. -/
theorem enforce_returns_one_result_per_rule_witness :
    ∃ rs st', enforce_policy stFin "financial_compliance_001" wireData none =
        .ok (rs, st') ∧
      rs.length = finPolicy.rules.length ∧
      (∀ i rule, finPolicy.rules.get? i = some rule →
        ∃ res, rs.get? i = some res ∧ res.rule_id = rule.rule_id ∧
          (evaluate_conditions rule.conditions wireData none = .ok false →
            res.action_taken = .allow ∧ res.success = true)) :=
  enforce_returns_one_result_per_rule stFin "financial_compliance_001" wireData none
    finPolicy rfl

/-- C2 (counterexample): an audited policy whose single rule raises a
`TypeError` during evaluation appends one synthetic failure result but no
audit entry, so the audited policy does not get exactly one audit entry
per rule evaluated. -/
theorem error_rule_gets_no_audit_entry :
    enforce_policy stBias "p1" biasData none = .ok ([biasFailResult], stBias) ∧
    biasPolicy.audit_required = true ∧
    biasPolicy.rules.length = 1 ∧
    stBias.audit_store = some [] :=
  ⟨rfl, rfl, rfl, rfl⟩

/-- C2 (amended): over an existing audit file, an enforcement call on an
audited policy appends exactly one audit entry per rule whose evaluation
and execution raised no exception, in the same order as the returned
results (rules that raised contribute a result but no audit entry); a
policy with `audit_required = false` appends nothing. -/
theorem audit_entries_track_unerrored_results (st : EngineState) (pid : String)
    (data : Record) (ctx : Option Record) (p : Policy) (log : List AuditEvent)
    (hp : alookup st.policies pid = some p)
    (hs : st.audit_store = some log) :
    ∃ rs st', enforce_policy st pid data ctx = .ok (rs, st') ∧
      (p.audit_required = true →
        st'.audit_store = some (log ++
          (rs.zip (p.rules.map (fun r => (ruleOutcome pid data ctx r).2))).filterMap
            (fun pr => if pr.2 then some (auditOf pid pr.1) else none))) ∧
      (p.audit_required = false → st'.audit_store = some log) := by
  have hE : enforce_policy st pid data ctx =
      .ok (p.rules.map (fun r => (ruleOutcome pid data ctx r).1),
        { st with audit_store :=
            (if p.audit_required = true then
               p.rules.filterMap (fun r =>
                 let out := ruleOutcome pid data ctx r
                 if out.2 = true then some (auditOf pid out.1) else none)
             else []).foldl log_audit_event st.audit_store }) := by
    unfold enforce_policy
    rw [hp]
  refine ⟨_, _, hE, ?_, ?_⟩
  · intro ha
    simp only [ha, if_true]
    rw [hs, foldl_log_audit, zip_map_filterMap]
  · intro ha
    simp [ha, hs]

/-- Witness for the amended C2 at the concrete financial-compliance
state, whose single rule fires without an exception. -/
theorem audit_entries_track_unerrored_results_witness :
    ∃ rs st', enforce_policy stFin "financial_compliance_001" wireData none =
        .ok (rs, st') ∧
      (finPolicy.audit_required = true →
        st'.audit_store = some (([] : List AuditEvent) ++
          (rs.zip (finPolicy.rules.map
              (fun r => (ruleOutcome "financial_compliance_001" wireData none r).2))).filterMap
            (fun pr => if pr.2 then some (auditOf "financial_compliance_001" pr.1)
                       else none))) ∧
      (finPolicy.audit_required = false → st'.audit_store = some []) :=
  audit_entries_track_unerrored_results stFin "financial_compliance_001" wireData none
    finPolicy [] rfl rfl

end CognitoFlow

namespace CognitoFlow

/-!
### Claims about anonymization and the dashboard rate (C7, C9)
-/

/-- C7 (counterexample): anonymize on a record where only the field "b"
holds PII reports both keys under `original_keys` even though the
substituted copy changes only "b" — the metadata lists every key, not the
touched ones. -/
theorem anonymize_reports_untouched_keys :
    (anonymize_data mixedData []).metadata =
      [("original_keys", Value.vList [Value.vStr "a", Value.vStr "b"]),
       ("anonymized", Value.vBool true)] ∧
    anonymizeRecord mixedData =
      [("a", Value.vStr "plain text"), ("b", Value.vStr "[EMAIL]")] :=
  ⟨rfl, rfl⟩

/-- C7 (amended): executing the anonymize action builds a
placeholder-substituted copy of the record — same key sequence, each
value passed through the substitution, which rewrites string fields with
the four placeholder tokens and leaves other fields unchanged, the
original record untouched — then discards the copy and returns success
with metadata listing every key of the record under `original_keys`
(not specifically the touched keys). -/
theorem anonymize_copies_and_reports_all_keys (data conds : Record) :
    anonymize_data data conds =
      { success := true
        message := "Data anonymized successfully"
        metadata := [("original_keys",
                      Value.vList (data.map (fun kv => Value.vStr kv.1))),
                     ("anonymized", Value.vBool true)] } ∧
    (anonymizeRecord data).map Prod.fst = data.map Prod.fst ∧
    (∀ k, alookup (anonymizeRecord data) k = (alookup data k).map anonymizeValue) :=
  ⟨rfl, anonymizeRecord_keys data, fun k => alookup_anonymizeRecord data k⟩

/-- Bounds of the rate expression computed by the dashboard. -/
theorem rate_expr_bounds (s t : Nat) (hst : s ≤ t) :
    0 ≤ (if t > 0 then (s : Rat) / (t : Rat) * 100 else 0) ∧
    (if t > 0 then (s : Rat) / (t : Rat) * 100 else 0) ≤ 100 := by
  split_ifs with ht
  · have htr : (0 : Rat) < t := by exact_mod_cast ht
    have hsr : (s : Rat) ≤ (t : Rat) := by exact_mod_cast hst
    have h1 : (s : Rat) / t ≤ 1 := (div_le_one htr).mpr hsr
    constructor
    · positivity
    · nlinarith
  · norm_num

/-- C9: whenever the compliance dashboard is produced, its
`compliance_rate` equals successful enforcements divided by total
enforcements times 100, is 0 when the total is 0, and lies in the
interval from 0 to 100. -/
theorem compliance_rate_formula_and_bounds (st : EngineState) (d : DashboardData)
    (h : get_compliance_dashboard st = .ok d) :
    d.summary.compliance_rate =
      (if d.summary.total_enforcements = 0 then 0
       else (d.summary.successful_enforcements : Rat) /
            (d.summary.total_enforcements : Rat) * 100) ∧
    0 ≤ d.summary.compliance_rate ∧ d.summary.compliance_rate ≤ 100 := by
  cases hs : st.audit_store with
  | none =>
    unfold get_compliance_dashboard at h
    rw [hs] at h
    exact absurd h (by simp)
  | some log =>
    unfold get_compliance_dashboard at h
    rw [hs] at h
    injection h with h
    subst h
    have hle : (log.filter (fun e => e.success)).length ≤ log.length :=
      List.length_filter_le _ _
    refine ⟨?_, rate_expr_bounds _ _ hle⟩
    by_cases h0 : log.length = 0
    · simp [h0]
    · simp [h0, Nat.pos_of_ne_zero h0]

/-- Witness for C9 at a state with an existing empty audit file. -/
theorem compliance_rate_formula_and_bounds_witness :
    dashEmpty.summary.compliance_rate =
      (if dashEmpty.summary.total_enforcements = 0 then 0
       else (dashEmpty.summary.successful_enforcements : Rat) /
            (dashEmpty.summary.total_enforcements : Rat) * 100) ∧
    0 ≤ dashEmpty.summary.compliance_rate ∧
    dashEmpty.summary.compliance_rate ≤ 100 :=
  compliance_rate_formula_and_bounds stEmpty dashEmpty rfl

end CognitoFlow
